import Mathlib

/-!
Verification of the `graph`, `ids` and `uord` crates of the misc-crates
repository.

Modelling conventions:
* Rust `HashMap`/`IntMap` values are modelled as association lists
  (`List (κ × α)`); real hash maps never contain a key twice, so statements
  that depend on it carry a nodup-keys hypothesis.
* Rust `IntSet` values are modelled as `List Nat` without duplicates.
* `u64` ids are modelled as `Nat`; the spec treats the 64-bit id space as
  practically unbounded.
* A Rust panic (a failed `assert!` or `.unwrap()`) is modelled as
  `Except.error s` where `s` is the state of the graph at the moment the
  panic fires, so that non-atomic failures can be observed.
-/

namespace MC

/-- Lookup in an association-list map: returns the value of the first entry
whose key matches, mirroring map lookup. -/
def lookupM {κ α : Type} [DecidableEq κ] (k : κ) : List (κ × α) → Option α
  | [] => none
  | e :: rest => if e.1 = k then some e.2 else lookupM k rest

/-- Insert into an association-list map: replaces the value of the first
entry with the given key, or appends a new entry, mirroring
`HashMap::insert`. -/
def insertM {κ α : Type} [DecidableEq κ] (k : κ) (v : α) : List (κ × α) → List (κ × α)
  | [] => [(k, v)]
  | e :: rest => if e.1 = k then (k, v) :: rest else e :: insertM k v rest

/-- Remove from an association-list map: drops the first entry with the
given key, mirroring `HashMap::remove`. -/
def eraseM {κ α : Type} [DecidableEq κ] (k : κ) : List (κ × α) → List (κ × α)
  | [] => []
  | e :: rest => if e.1 = k then rest else e :: eraseM k rest

theorem lookupM_eq_none_iff {κ α : Type} [DecidableEq κ] {k : κ} {l : List (κ × α)} :
    lookupM k l = none ↔ k ∉ l.map Prod.fst := by
  induction l with
  | nil => simp [lookupM]
  | cons e rest ih =>
    by_cases h : e.1 = k
    · subst h
      simp [lookupM]
    · simp [lookupM, h, Ne.symm h, ih]

theorem lookupM_isSome_iff {κ α : Type} [DecidableEq κ] {k : κ} {l : List (κ × α)} :
    (lookupM k l).isSome = true ↔ k ∈ l.map Prod.fst := by
  constructor
  · intro h
    by_contra hmem
    rw [lookupM_eq_none_iff.mpr hmem] at h
    simp at h
  · intro h
    cases hl : lookupM k l with
    | none => exact absurd h (lookupM_eq_none_iff.mp hl)
    | some v => rfl

theorem lookupM_insertM {κ α : Type} [DecidableEq κ] (k k' : κ) (v : α) (l : List (κ × α)) :
    lookupM k (insertM k' v l) = if k' = k then some v else lookupM k l := by
  induction l with
  | nil => simp [insertM, lookupM]
  | cons e rest ih =>
    by_cases h : e.1 = k'
    · subst h
      by_cases h' : e.1 = k <;> simp [insertM, lookupM, h']
    · by_cases h' : e.1 = k
      · subst h'
        simp [insertM, lookupM, h, Ne.symm h]
      · simp [insertM, lookupM, h, h', ih]

theorem insertM_of_lookupM_eq_none {κ α : Type} [DecidableEq κ] {k : κ} (v : α)
    {l : List (κ × α)} (h : lookupM k l = none) : insertM k v l = l ++ [(k, v)] := by
  induction l with
  | nil => simp [insertM]
  | cons e rest ih =>
    simp only [lookupM] at h
    by_cases he : e.1 = k
    · simp [he] at h
    · simp [insertM, he] at h ⊢
      exact ih h

theorem map_fst_insertM_of_mem {κ α : Type} [DecidableEq κ] {k : κ} (v : α)
    {l : List (κ × α)} (h : k ∈ l.map Prod.fst) :
    (insertM k v l).map Prod.fst = l.map Prod.fst := by
  induction l with
  | nil => simp at h
  | cons e rest ih =>
    by_cases he : e.1 = k
    · simp [insertM, he]
    · simp only [List.map_cons, List.mem_cons] at h
      rcases h with h | h
      · exact absurd h.symm he
      · simp [insertM, he, ih h]

theorem eraseM_sublist {κ α : Type} [DecidableEq κ] (k : κ) (l : List (κ × α)) :
    (eraseM k l).Sublist l := by
  induction l with
  | nil => simp [eraseM]
  | cons e rest ih =>
    by_cases he : e.1 = k
    · rw [eraseM, if_pos he]
      exact List.sublist_cons_self e rest
    · rw [eraseM, if_neg he]
      exact ih.cons₂ e

theorem map_fst_eraseM_sublist {κ α : Type} [DecidableEq κ] (k : κ) (l : List (κ × α)) :
    ((eraseM k l).map Prod.fst).Sublist (l.map Prod.fst) :=
  (eraseM_sublist k l).map Prod.fst

theorem lookupM_eraseM {κ α : Type} [DecidableEq κ] {k k' : κ} {l : List (κ × α)}
    (hnd : (l.map Prod.fst).Nodup) :
    lookupM k (eraseM k' l) = if k' = k then none else lookupM k l := by
  induction l with
  | nil => simp [eraseM, lookupM]
  | cons e rest ih =>
    simp only [List.map_cons, List.nodup_cons] at hnd
    by_cases he : e.1 = k'
    · subst he
      by_cases hk : e.1 = k
      · subst hk
        simp only [eraseM, if_pos rfl, if_pos rfl]
        exact lookupM_eq_none_iff.mpr hnd.1
      · simp [eraseM, lookupM, hk]
    · by_cases hk : e.1 = k
      · subst hk
        simp [eraseM, lookupM, he, Ne.symm he]
      · simp [eraseM, lookupM, he, hk, ih hnd.2]

theorem lookupM_of_mem_of_nodup {κ α : Type} [DecidableEq κ] {l : List (κ × α)}
    (hnd : (l.map Prod.fst).Nodup) {e : κ × α} (he : e ∈ l) : lookupM e.1 l = some e.2 := by
  induction l with
  | nil => simp at he
  | cons f rest ih =>
    simp only [List.map_cons, List.nodup_cons] at hnd
    rcases List.mem_cons.mp he with h | h
    · subst h; simp [lookupM]
    · have hne : f.1 ≠ e.1 := by
        intro hcontra
        exact hnd.1 (hcontra ▸ List.mem_map_of_mem Prod.fst h)
      simp [lookupM, hne, ih hnd.2 h]

theorem mem_of_lookupM_eq_some {κ α : Type} [DecidableEq κ] {k : κ} {v : α}
    {l : List (κ × α)} (h : lookupM k l = some v) : (k, v) ∈ l := by
  induction l with
  | nil => simp [lookupM] at h
  | cons e rest ih =>
    rw [lookupM] at h
    by_cases he : e.1 = k
    · rw [if_pos he] at h
      injection h with h'
      subst h'
      subst he
      exact List.mem_cons_self _ _
    · rw [if_neg he] at h
      exact List.mem_cons_of_mem _ (ih h)

/-- Set insertion on a duplicate-free list, mirroring `IntSet::insert`. -/
def insertS (x : Nat) (s : List Nat) : List Nat := if x ∈ s then s else x :: s

/-- Set removal on a duplicate-free list, mirroring `IntSet::remove`. -/
def removeS (x : Nat) (s : List Nat) : List Nat := s.filter (fun y => decide (y ≠ x))

@[simp]
theorem mem_insertS {x y : Nat} {s : List Nat} : y ∈ insertS x s ↔ y = x ∨ y ∈ s := by
  by_cases h : x ∈ s
  · simp only [insertS, if_pos h]
    constructor
    · exact Or.inr
    · rintro (rfl | h') <;> [exact h; exact h']
  · simp [insertS, if_neg h]

@[simp]
theorem mem_removeS {x y : Nat} {s : List Nat} : y ∈ removeS x s ↔ y ∈ s ∧ y ≠ x := by
  simp [removeS]

theorem nodup_insertS {x : Nat} {s : List Nat} (h : s.Nodup) : (insertS x s).Nodup := by
  by_cases hx : x ∈ s
  · simpa [insertS, hx] using h
  · rw [insertS, if_neg hx]
    exact List.nodup_cons.mpr ⟨hx, h⟩

theorem nodup_removeS {x : Nat} {s : List Nat} (h : s.Nodup) : (removeS x s).Nodup :=
  h.filter _

theorem removeS_eq_self_of_notMem {x : Nat} {s : List Nat} (h : x ∉ s) : removeS x s = s := by
  apply List.filter_eq_self.mpr
  intro a ha
  simp only [decide_eq_true_eq]
  exact fun hax => h (hax ▸ ha)

/-- The unordered-pair type of the `uord` crate: two values stored as
`(min, max)` under the element type's order. -/
structure UOrd (T : Type) where
  min : T
  max : T
deriving DecidableEq

/-- `UOrd::new`: normalizes the order of the two arguments.  The source
matches on `Ord::cmp(&a, &b)`, keeping `(a, b)` on `Less | Equal` and
swapping on `Greater`. -/
def UOrd.new {T : Type} [LinearOrder T] (a b : T) : UOrd T :=
  if a ≤ b then ⟨a, b⟩ else ⟨b, a⟩

/-- `UOrd::as_tuple`: the `(min, max)` view of the pair. -/
def UOrd.asTuple {T : Type} (p : UOrd T) : T × T := (p.min, p.max)

/-- The `PartialEq` implementation of `UOrd`: equal if the component pairs
match directly or crosswise. -/
def UOrd.beqU {T : Type} [DecidableEq T] (x y : UOrd T) : Bool :=
  (decide (x.min = y.min) && decide (x.max = y.max)) ||
  (decide (x.min = y.max) && decide (x.max = y.min))

/-- `UOrd::is_distinct`: the two elements differ. -/
def UOrd.isDistinct {T : Type} [DecidableEq T] (p : UOrd T) : Bool :=
  decide (p.min ≠ p.max)

/-- `UOrd::contains`: one of the two elements equals `x`. -/
def UOrd.containsB {T : Type} [DecidableEq T] (p : UOrd T) (x : T) : Bool :=
  decide (p.min = x) || decide (p.max = x)

/-- `UOrd::other`: the element opposite to `x`; the source checks `max`
first, then `min`. -/
def UOrd.other {T : Type} [DecidableEq T] (p : UOrd T) (x : T) : Option T :=
  if p.max = x then some p.min else if p.min = x then some p.max else none

/-- The `Serialize` implementation of `UOrd` writes `as_tuple()`, i.e. the
`(min, max)` tuple. -/
def UOrd.serializeRepr {T : Type} (p : UOrd T) : T × T := p.asTuple

/-- The `Hash` implementation of `UOrd` feeds `as_tuple()` to the hasher;
two pairs hash identically exactly when they feed the same tuple. -/
def UOrd.hashRepr {T : Type} (p : UOrd T) : T × T := p.asTuple

theorem UOrd.new_comm {T : Type} [LinearOrder T] (a b : T) :
    UOrd.new a b = UOrd.new b a := by
  unfold UOrd.new
  rcases lt_trichotomy a b with h | h | h
  · simp [le_of_lt h, not_le.mpr h]
  · simp [h]
  · simp [le_of_lt h, not_le.mpr h]

@[simp]
theorem UOrd.new_min_le_max {T : Type} [LinearOrder T] (a b : T) :
    (UOrd.new a b).min ≤ (UOrd.new a b).max := by
  unfold UOrd.new
  by_cases h : a ≤ b
  · simp [h]
  · simp only [if_neg h]
    exact le_of_not_le h

theorem UOrd.new_eq_iff {T : Type} [LinearOrder T] {a b : T} {p : UOrd T}
    (hp : p.min ≤ p.max) :
    UOrd.new a b = p ↔ (a = p.min ∧ b = p.max) ∨ (a = p.max ∧ b = p.min) := by
  unfold UOrd.new
  by_cases h : a ≤ b
  · simp only [if_pos h]
    constructor
    · rintro rfl; exact Or.inl ⟨rfl, rfl⟩
    · rintro (⟨rfl, rfl⟩ | ⟨rfl, rfl⟩)
      · rfl
      · cases p
        simp only [UOrd.mk.injEq]
        exact ⟨le_antisymm h hp, le_antisymm hp h⟩
  · simp only [if_neg h]
    constructor
    · rintro rfl; exact Or.inr ⟨rfl, rfl⟩
    · rintro (⟨rfl, rfl⟩ | ⟨rfl, rfl⟩)
      · exact absurd hp h
      · rfl

theorem UOrd.new_lt_of_ne {T : Type} [LinearOrder T] {a b : T} (h : a ≠ b) :
    (UOrd.new a b).min < (UOrd.new a b).max := by
  unfold UOrd.new
  rcases lt_trichotomy a b with h' | h' | h'
  · simpa [le_of_lt h']
  · exact absurd h' h
  · simpa [not_le.mpr h'] using h'

@[simp]
theorem UOrd.isDistinct_new_iff {T : Type} [LinearOrder T] {a b : T} :
    (UOrd.new a b).isDistinct = true ↔ a ≠ b := by
  constructor
  · intro h hab
    subst hab
    simp [UOrd.new, UOrd.isDistinct] at h
  · intro h
    simp [UOrd.isDistinct, ne_of_lt (UOrd.new_lt_of_ne h)]

theorem UOrd.new_eq_new_iff {T : Type} [LinearOrder T] {a b c d : T} :
    UOrd.new a b = UOrd.new c d ↔ (a = c ∧ b = d) ∨ (a = d ∧ b = c) := by
  rw [UOrd.new_eq_iff (UOrd.new_min_le_max c d)]
  unfold UOrd.new
  by_cases h : c ≤ d
  · simp [h]
  · simp only [if_neg h]
    tauto

theorem UOrd.containsB_new_iff {T : Type} [LinearOrder T] [DecidableEq T] {a b x : T} :
    (UOrd.new a b).containsB x = true ↔ a = x ∨ b = x := by
  unfold UOrd.new UOrd.containsB
  by_cases h : a ≤ b
  · simp [h]
  · simp only [if_neg h, Bool.or_eq_true, decide_eq_true_eq]
    tauto

/-- A node entry of the graph: its payload and its cached adjacency set
(`NodeInner` in the source). -/
structure NodeInner (N : Type) where
  value : N
  neighbors : List Nat
deriving DecidableEq

/-- The graph of the `graph` crate: an id counter (`IdContext`), a node map
and a link map keyed by unordered id pairs. -/
structure Graph (N L : Type) where
  id_context : Nat
  nodes : List (Nat × NodeInner N)
  links : List (UOrd Nat × L)
deriving DecidableEq

/-- `Graph::new`: empty maps, fresh id context. -/
def Graph.new {N L : Type} : Graph N L := ⟨0, [], []⟩

/-- `IdContext::next_id`: returns the current counter and increments it. -/
def nextId (c : Nat) : Nat × Nat := (c, c + 1)

/-- The ids returned by `n` successive `next_id` calls on a context whose
counter is `c`. -/
def mintMany (c : Nat) : Nat → List Nat
  | 0 => []
  | n + 1 => (nextId c).1 :: mintMany (nextId c).2 n

/-- `Graph::add_node`: mints a fresh id and inserts a node with an empty
adjacency set; returns the id. -/
def addNode {N L : Type} (g : Graph N L) (v : N) : Nat × Graph N L :=
  let r := nextId g.id_context
  (r.1, { g with id_context := r.2, nodes := insertM r.1 ⟨v, []⟩ g.nodes })

/-- `Graph::add_link`: asserts the pair is distinct, inserts the link and,
when the link is new, records each endpoint in the other's adjacency set
(`link_node_neighbors`, which unwraps both node lookups, smaller endpoint
first).  `Except.error s` models the panic of the `assert!` or of a failed
unwrap, with `s` the state at that moment. -/
def addLink {N L : Type} (g : Graph N L) (v : L) (a b : Nat) :
    Except (Graph N L) (Option L × Graph N L) :=
  let p := UOrd.new a b
  if p.isDistinct then
    match lookupM p g.links with
    | some previous => .ok (some previous, { g with links := insertM p v g.links })
    | none =>
      let g1 := { g with links := insertM p v g.links }
      match lookupM p.min g1.nodes with
      | none => .error g1
      | some i1 =>
        let g2 := { g1 with
          nodes := insertM p.min ⟨i1.value, insertS p.max i1.neighbors⟩ g1.nodes }
        match lookupM p.max g2.nodes with
        | none => .error g2
        | some i2 =>
          .ok (none, { g2 with
            nodes := insertM p.max ⟨i2.value, insertS p.min i2.neighbors⟩ g2.nodes })
  else .error g

/-- The neighbor loop of `Graph::remove_node`: for each neighbor of the
removed node, prunes the neighbor's adjacency entry
(`unlink_node_neighbor`, which unwraps the node lookup) and removes the
reciprocal link (`UOrd::new(linked_node, id)`, unwrapping the link
lookup), collecting the removed link payloads. -/
def removeNodeLoop {N L : Type} (id : Nat) :
    List Nat → Graph N L → Except (Graph N L) (List L × Graph N L)
  | [], g => .ok ([], g)
  | m :: rest, g =>
    match lookupM m g.nodes with
    | none => .error g
    | some i =>
      let g1 := { g with nodes := insertM m ⟨i.value, removeS id i.neighbors⟩ g.nodes }
      match lookupM (UOrd.new m id) g1.links with
      | none => .error g1
      | some w =>
        let g2 := { g1 with links := eraseM (UOrd.new m id) g1.links }
        match removeNodeLoop id rest g2 with
        | .error gbad => .error gbad
        | .ok (ws, g3) => .ok (w :: ws, g3)

/-- `Graph::remove_node`: removes the node entry and cascades over its
recorded neighbors; `.ok (none, g)` is the "id unknown" case. -/
def removeNode {N L : Type} (g : Graph N L) (id : Nat) :
    Except (Graph N L) (Option (N × List L) × Graph N L) :=
  match lookupM id g.nodes with
  | none => .ok (none, g)
  | some i =>
    let g0 := { g with nodes := eraseM id g.nodes }
    match removeNodeLoop id i.neighbors g0 with
    | .error gbad => .error gbad
    | .ok (ws, g') => .ok (some (i.value, ws), g')

/-- `Graph::remove_link`: removes the link entry if present, then prunes
both endpoints' adjacency sets (`unlink_node_neighbors`, unwrapping both
node lookups, smaller endpoint first). -/
def removeLink {N L : Type} (g : Graph N L) (a b : Nat) :
    Except (Graph N L) (Option L × Graph N L) :=
  let p := UOrd.new a b
  match lookupM p g.links with
  | none => .ok (none, g)
  | some v =>
    let g1 := { g with links := eraseM p g.links }
    match lookupM p.min g1.nodes with
    | none => .error g1
    | some i1 =>
      let g2 := { g1 with
        nodes := insertM p.min ⟨i1.value, removeS p.max i1.neighbors⟩ g1.nodes }
      match lookupM p.max g2.nodes with
      | none => .error g2
      | some i2 =>
        .ok (some v, { g2 with
          nodes := insertM p.max ⟨i2.value, removeS p.min i2.neighbors⟩ g2.nodes })

/-- `Graph::remove_orphaned_nodes`: retains exactly the node entries whose
adjacency set is non-empty. -/
def removeOrphanedNodes {N L : Type} (g : Graph N L) : Graph N L :=
  { g with nodes := g.nodes.filter (fun e => !e.2.neighbors.isEmpty) }

/-- The `Extend` implementation of `Graph`: calls `add_link` for each
`(pair, value)` item in order; a panic aborts the iteration. -/
def extendLinks {N L : Type} (g : Graph N L) :
    List ((Nat × Nat) × L) → Except (Graph N L) (Graph N L)
  | [] => .ok g
  | item :: rest =>
    match addLink g item.2 item.1.1 item.1.2 with
    | .error gbad => .error gbad
    | .ok (_, g') => extendLinks g' rest

/-- The adjacency set rebuilt by `Graph::from_raw` for one node id: every
partner id found by `UOrd::other` over all link keys, inserted in order
into a cleared set. -/
def recomputeNeighbors {L : Type} (id : Nat) (links : List (UOrd Nat × L)) : List Nat :=
  ((links.map Prod.fst).filterMap (fun p => p.other id)).foldl (fun s m => insertS m s) []

/-- The raw id integers `Graph::from_raw` scans to resume the id context:
the node keys chained with both elements of every link key. -/
def persistedIds {N L : Type} (nodes : List (Nat × NodeInner N))
    (links : List (UOrd Nat × L)) : List Nat :=
  nodes.map Prod.fst ++ (links.map Prod.fst).flatMap (fun p => [p.min, p.max])

/-- `Graph::from_raw`: rebuilds every node's adjacency set from the link
map and resumes the id context at one past the maximum raw id (0 when
there is none).  The `maximize`/`highest_id` loop of the source computes a
value that is never used, so it has no observable effect. -/
def fromRaw {N L : Type} (nodes : List (Nat × NodeInner N))
    (links : List (UOrd Nat × L)) : Graph N L :=
  let nodes' := nodes.map fun e => (e.1, ⟨e.2.value, recomputeNeighbors e.1 links⟩)
  let current_id := (persistedIds nodes links).max?.elim 0 (· + 1)
  ⟨current_id, nodes', links⟩

/-- The `Serialize` impl for `Graph` writes the node map with each
`NodeInner` serialized as its payload only (adjacency is not persisted). -/
def serializeNodes {N L : Type} (g : Graph N L) : List (Nat × N) :=
  g.nodes.map fun e => (e.1, e.2.value)

/-- The `Serialize` impl for `Graph` writes the link map with each `UOrd`
key serialized as its `(min, max)` tuple. -/
def serializeLinks {N L : Type} (g : Graph N L) : List ((Nat × Nat) × L) :=
  g.links.map fun e => (e.1.serializeRepr, e.2)

/-- The `Deserialize` impl for `Graph`: each `NodeInner` comes back with an
empty adjacency set, each link key is rebuilt with `UOrd::new`, and the
result goes through `Graph::from_raw`. -/
def deserializeGraph {N L : Type} (rawNodes : List (Nat × N))
    (rawLinks : List ((Nat × Nat) × L)) : Graph N L :=
  fromRaw (rawNodes.map fun e => (e.1, ⟨e.2, []⟩))
    (rawLinks.map fun e => (UOrd.new e.1.1 e.1.2, e.2))

/-- Serialization followed by deserialization. -/
def roundTrip {N L : Type} (g : Graph N L) : Graph N L :=
  deserializeGraph (serializeNodes g) (serializeLinks g)

/-- One public mutating operation of the graph. -/
inductive Op (N L : Type) where
  | addNode (v : N)
  | addLink (v : L) (a b : Nat)
  | removeNode (id : Nat)
  | removeLink (a b : Nat)
  | removeOrphanedNodes
  | extend (items : List ((Nat × Nat) × L))

/-- Runs one public operation; `none` when the call panics, so that only
completed mutating calls produce a state. -/
def applyOp {N L : Type} (g : Graph N L) : Op N L → Option (Graph N L)
  | .addNode v => some (addNode g v).2
  | .addLink v a b =>
    match addLink g v a b with
    | .error _ => none
    | .ok (_, g') => some g'
  | .removeNode id =>
    match removeNode g id with
    | .error _ => none
    | .ok (_, g') => some g'
  | .removeLink a b =>
    match removeLink g a b with
    | .error _ => none
    | .ok (_, g') => some g'
  | .removeOrphanedNodes => some (removeOrphanedNodes g)
  | .extend items =>
    match extendLinks g items with
    | .error _ => none
    | .ok g' => some g'

/-- The graphs reachable from `Graph::new` by sequences of completed public
operations. -/
inductive Reachable {N L : Type} : Graph N L → Prop where
  | empty : Reachable Graph.new
  | step {g g' : Graph N L} (op : Op N L) :
      Reachable g → applyOp g op = some g' → Reachable g'

/-- Structural well-formedness that the Rust types provide for free: map
keys occur at most once and adjacency sets hold no duplicates. -/
def NodupKeysG {N L : Type} (g : Graph N L) : Prop :=
  (g.nodes.map Prod.fst).Nodup ∧ (g.links.map Prod.fst).Nodup ∧
  ∀ id inner, lookupM id g.nodes = some inner → inner.neighbors.Nodup

/-- Every stored link key is a normalized pair of two distinct node ids
that are both present in the node map. -/
def LinksWF {N L : Type} (g : Graph N L) : Prop :=
  ∀ p : UOrd Nat, (lookupM p g.links).isSome = true →
    p.min < p.max ∧ (lookupM p.min g.nodes).isSome = true ∧
    (lookupM p.max g.nodes).isSome = true

/-- The adjacency/link consistency invariant: for every present node `id`,
its adjacency set holds exactly the ids `m` such that a link keyed by the
unordered pair of `id` and `m` exists. -/
def Consistent {N L : Type} (g : Graph N L) : Prop :=
  ∀ id inner, lookupM id g.nodes = some inner →
    ∀ m, (m ∈ inner.neighbors ↔ (lookupM (UOrd.new id m) g.links).isSome = true)

/-- The full invariant maintained by the public graph operations. -/
structure GraphInv {N L : Type} (g : Graph N L) : Prop where
  wf : NodupKeysG g
  linksWF : LinksWF g
  consistent : Consistent g
  idBound : ∀ id, (lookupM id g.nodes).isSome = true → id < g.id_context

theorem isSome_lookupM_insertM {κ α : Type} [DecidableEq κ] {k k' : κ} {v : α}
    {l : List (κ × α)} :
    (lookupM k (insertM k' v l)).isSome = true ↔ k' = k ∨ (lookupM k l).isSome = true := by
  rw [lookupM_insertM]
  by_cases h : k' = k <;> simp [h]

theorem lookupM_filter {κ α : Type} [DecidableEq κ] {k : κ} {l : List (κ × α)}
    (pb : κ × α → Bool) (hnd : (l.map Prod.fst).Nodup) :
    lookupM k (l.filter pb) =
      (lookupM k l).bind (fun v => if pb (k, v) then some v else none) := by
  induction l with
  | nil => simp [lookupM]
  | cons e rest ih =>
    simp only [List.map_cons, List.nodup_cons] at hnd
    obtain ⟨e1, e2⟩ := e
    by_cases he : e1 = k
    · subst he
      by_cases hp : pb (e1, e2)
      · simp [lookupM, hp, List.filter_cons]
      · have hrest : lookupM e1 (rest.filter pb) = none := by
          rw [lookupM_eq_none_iff]
          intro hmem
          have hm : e1 ∈ rest.map Prod.fst :=
            List.map_subset Prod.fst (List.filter_subset' rest) hmem
          exact hnd.1 hm
        simp [lookupM, hp, List.filter_cons, hrest]
    · by_cases hp : pb (e1, e2) <;>
        simp [lookupM, hp, List.filter_cons, he, ih hnd.2]

theorem UOrd.new_endpoint_left {T : Type} [LinearOrder T] (a b : T) :
    (UOrd.new a b).min = a ∨ (UOrd.new a b).max = a := by
  unfold UOrd.new
  by_cases h : a ≤ b <;> simp [h]

theorem UOrd.new_endpoint_pair {T : Type} [LinearOrder T] (a b : T) :
    ((UOrd.new a b).min = a ∧ (UOrd.new a b).max = b) ∨
    ((UOrd.new a b).min = b ∧ (UOrd.new a b).max = a) := by
  unfold UOrd.new
  by_cases h : a ≤ b <;> simp [h]

theorem UOrd.new_eq_left_iff {T : Type} [LinearOrder T] {p : UOrd T} {m : T}
    (h : p.min < p.max) : UOrd.new p.min m = p ↔ m = p.max := by
  rw [UOrd.new_eq_iff (le_of_lt h)]
  constructor
  · rintro (⟨-, hm⟩ | ⟨hmin, -⟩)
    · exact hm
    · exact absurd hmin (ne_of_lt h)
  · intro hm
    exact Or.inl ⟨rfl, hm⟩

theorem UOrd.new_eq_right_iff {T : Type} [LinearOrder T] {p : UOrd T} {m : T}
    (h : p.min < p.max) : UOrd.new p.max m = p ↔ m = p.min := by
  rw [UOrd.new_eq_iff (le_of_lt h)]
  constructor
  · rintro (⟨hmax, -⟩ | ⟨-, hm⟩)
    · exact absurd hmax.symm (ne_of_lt h)
    · exact hm
  · intro hm
    exact Or.inr ⟨rfl, hm⟩

theorem UOrd.new_eq_endpoint {T : Type} [LinearOrder T] {n m : T} {p : UOrd T}
    (h : UOrd.new n m = p) : n = p.min ∨ n = p.max := by
  rcases UOrd.new_endpoint_left n m with h' | h'
  · exact Or.inl (h ▸ h'.symm)
  · exact Or.inr (h ▸ h'.symm)

theorem UOrd.new_of_norm {T : Type} [LinearOrder T] {p : UOrd T} (h : p.min ≤ p.max) :
    UOrd.new p.min p.max = p := by
  cases p
  rw [UOrd.new, if_pos h]

theorem addLink_self {N L : Type} (g : Graph N L) (v : L) (a : Nat) :
    addLink g v a a = .error g := by
  simp [addLink, UOrd.new, UOrd.isDistinct]

theorem addLink_replace {N L : Type} {g : Graph N L} {prev : L} {a b : Nat} (v : L)
    (hab : a ≠ b) (hprev : lookupM (UOrd.new a b) g.links = some prev) :
    addLink g v a b =
      .ok (some prev, { g with links := insertM (UOrd.new a b) v g.links }) := by
  simp [addLink, if_pos (UOrd.isDistinct_new_iff.mpr hab), hprev, hab]

theorem addLink_new {N L : Type} {g : Graph N L} {a b : Nat} {i1 i2 : NodeInner N} (v : L)
    (hab : a ≠ b)
    (hnone : lookupM (UOrd.new a b) g.links = none)
    (h1 : lookupM (UOrd.new a b).min g.nodes = some i1)
    (h2 : lookupM (UOrd.new a b).max g.nodes = some i2) :
    addLink g v a b = .ok (none,
      { g with
        nodes :=
          insertM (UOrd.new a b).max ⟨i2.value, insertS (UOrd.new a b).min i2.neighbors⟩
            (insertM (UOrd.new a b).min ⟨i1.value, insertS (UOrd.new a b).max i1.neighbors⟩
              g.nodes),
        links := insertM (UOrd.new a b) v g.links }) := by
  have hne : (UOrd.new a b).min ≠ (UOrd.new a b).max := ne_of_lt (UOrd.new_lt_of_ne hab)
  simp [addLink, if_pos (UOrd.isDistinct_new_iff.mpr hab), hnone, h1, h2,
    lookupM_insertM, hne, hab]

theorem addLink_panic_min_absent {N L : Type} {g : Graph N L} {a b : Nat} (v : L)
    (hab : a ≠ b)
    (hnone : lookupM (UOrd.new a b) g.links = none)
    (h1 : lookupM (UOrd.new a b).min g.nodes = none) :
    addLink g v a b = .error { g with links := insertM (UOrd.new a b) v g.links } := by
  simp [addLink, if_pos (UOrd.isDistinct_new_iff.mpr hab), hnone, h1, hab]

theorem addLink_panic_max_absent {N L : Type} {g : Graph N L} {a b : Nat}
    {i1 : NodeInner N} (v : L)
    (hab : a ≠ b)
    (hnone : lookupM (UOrd.new a b) g.links = none)
    (h1 : lookupM (UOrd.new a b).min g.nodes = some i1)
    (h2 : lookupM (UOrd.new a b).max g.nodes = none) :
    addLink g v a b = .error
      { g with
        nodes :=
          insertM (UOrd.new a b).min ⟨i1.value, insertS (UOrd.new a b).max i1.neighbors⟩
            g.nodes,
        links := insertM (UOrd.new a b) v g.links } := by
  have hne : (UOrd.new a b).min ≠ (UOrd.new a b).max := ne_of_lt (UOrd.new_lt_of_ne hab)
  simp [addLink, if_pos (UOrd.isDistinct_new_iff.mpr hab), hnone, h1, h2,
    lookupM_insertM, hne, hab]

theorem graphInv_addNode {N L : Type} {g : Graph N L} (h : GraphInv g) (v : N) :
    GraphInv (addNode g v).2 := by
  obtain ⟨⟨hnodes, hlinks, hnbrs⟩, hlw, hcons, hid⟩ := h
  have hfresh : lookupM g.id_context g.nodes = none := by
    cases hl : lookupM g.id_context g.nodes with
    | none => rfl
    | some i =>
      have := hid g.id_context (by rw [hl]; rfl)
      omega
  have hform : insertM g.id_context (⟨v, []⟩ : NodeInner N) g.nodes =
      g.nodes ++ [(g.id_context, ⟨v, []⟩)] := insertM_of_lookupM_eq_none _ hfresh
  refine ⟨⟨?_, hlinks, ?_⟩, ?_, ?_, ?_⟩
  · show ((insertM g.id_context ⟨v, []⟩ g.nodes).map Prod.fst).Nodup
    rw [hform, List.map_append, List.nodup_append_comm]
    simp only [List.map_cons, List.map_nil, List.singleton_append, List.nodup_cons]
    exact ⟨lookupM_eq_none_iff.mp hfresh, hnodes⟩
  · intro id inner hl
    rw [show (addNode g v).2.nodes = insertM g.id_context ⟨v, []⟩ g.nodes from rfl,
      lookupM_insertM] at hl
    by_cases hc : g.id_context = id
    · rw [if_pos hc] at hl
      cases hl
      exact List.nodup_nil
    · rw [if_neg hc] at hl
      exact hnbrs id inner hl
  · intro p hp
    obtain ⟨hlt, hm1, hm2⟩ := hlw p hp
    refine ⟨hlt, ?_, ?_⟩ <;>
      exact isSome_lookupM_insertM.mpr (Or.inr (by assumption))
  · intro id inner hl m
    rw [show (addNode g v).2.nodes = insertM g.id_context ⟨v, []⟩ g.nodes from rfl,
      lookupM_insertM] at hl
    by_cases hc : g.id_context = id
    · rw [if_pos hc] at hl
      cases hl
      simp only [List.not_mem_nil, false_iff]
      intro hcontra
      obtain ⟨-, hm1, hm2⟩ := hlw _ hcontra
      rcases UOrd.new_endpoint_left id m with he | he
      · rw [he] at hm1
        have := hid id hm1
        omega
      · rw [he] at hm2
        have := hid id hm2
        omega
    · rw [if_neg hc] at hl
      exact hcons id inner hl m
  · intro id hl
    rw [show (addNode g v).2.nodes = insertM g.id_context ⟨v, []⟩ g.nodes from rfl] at hl
    rcases isSome_lookupM_insertM.mp hl with hc | hc
    · subst hc
      show g.id_context < g.id_context + 1
      omega
    · have := hid id hc
      show id < g.id_context + 1
      omega

theorem nodup_map_fst_insertM_of_none {κ α : Type} [DecidableEq κ] {k : κ} {v : α}
    {l : List (κ × α)} (hnd : (l.map Prod.fst).Nodup) (h : lookupM k l = none) :
    ((insertM k v l).map Prod.fst).Nodup := by
  rw [insertM_of_lookupM_eq_none v h, List.map_append, List.nodup_append_comm]
  simp only [List.map_cons, List.map_nil, List.singleton_append, List.nodup_cons]
  exact ⟨lookupM_eq_none_iff.mp h, hnd⟩

theorem addLink_ok_cases {N L : Type} {g g' : Graph N L} {v : L} {a b : Nat}
    {r : Option L} (heq : addLink g v a b = .ok (r, g')) :
    (∃ prev, a ≠ b ∧ lookupM (UOrd.new a b) g.links = some prev ∧ r = some prev ∧
      g' = { g with links := insertM (UOrd.new a b) v g.links }) ∨
    (∃ i1 i2, a ≠ b ∧ lookupM (UOrd.new a b) g.links = none ∧
      lookupM (UOrd.new a b).min g.nodes = some i1 ∧
      lookupM (UOrd.new a b).max g.nodes = some i2 ∧ r = none ∧
      g' = { g with
        nodes :=
          insertM (UOrd.new a b).max ⟨i2.value, insertS (UOrd.new a b).min i2.neighbors⟩
            (insertM (UOrd.new a b).min ⟨i1.value, insertS (UOrd.new a b).max i1.neighbors⟩
              g.nodes),
        links := insertM (UOrd.new a b) v g.links }) := by
  by_cases hab : a = b
  · subst hab
    rw [addLink_self] at heq
    cases heq
  · cases hp : lookupM (UOrd.new a b) g.links with
    | some prev =>
      rw [addLink_replace v hab hp] at heq
      injection heq with heq
      injection heq with heq1 heq2
      exact Or.inl ⟨prev, hab, rfl, heq1.symm, heq2.symm⟩
    | none =>
      cases h1 : lookupM (UOrd.new a b).min g.nodes with
      | none =>
        rw [addLink_panic_min_absent v hab hp h1] at heq
        cases heq
      | some i1 =>
        cases h2 : lookupM (UOrd.new a b).max g.nodes with
        | none =>
          rw [addLink_panic_max_absent v hab hp h1 h2] at heq
          cases heq
        | some i2 =>
          rw [addLink_new v hab hp h1 h2] at heq
          injection heq with heq
          injection heq with heq1 heq2
          exact Or.inr ⟨i1, i2, hab, rfl, rfl, rfl, heq1.symm, heq2.symm⟩

theorem graphInv_addLink {N L : Type} {g g' : Graph N L} {v : L} {a b : Nat}
    {r : Option L} (h : GraphInv g) (heq : addLink g v a b = .ok (r, g')) :
    GraphInv g' := by
  obtain ⟨⟨hnodes, hlinks, hnbrs⟩, hlw, hcons, hid⟩ := h
  rcases addLink_ok_cases heq with
    ⟨prev, hab, hp, -, rfl⟩ | ⟨i1, i2, hab, hp, h1, h2, -, rfl⟩
  · -- the link already existed: only its payload is replaced
    have hpmem : UOrd.new a b ∈ g.links.map Prod.fst :=
      lookupM_isSome_iff.mp (by rw [hp]; rfl)
    have hsame : ∀ q : UOrd Nat,
        (lookupM q (insertM (UOrd.new a b) v g.links)).isSome =
          (lookupM q g.links).isSome := by
      intro q
      rw [lookupM_insertM]
      by_cases hq : UOrd.new a b = q
      · subst hq
        rw [if_pos rfl, hp]
        rfl
      · rw [if_neg hq]
    refine ⟨⟨hnodes, ?_, hnbrs⟩, ?_, ?_, hid⟩
    · show ((insertM (UOrd.new a b) v g.links).map Prod.fst).Nodup
      rw [map_fst_insertM_of_mem v hpmem]
      exact hlinks
    · intro q hq
      rw [show ({ g with links := insertM (UOrd.new a b) v g.links } : Graph N L).links =
        insertM (UOrd.new a b) v g.links from rfl, hsame] at hq
      exact hlw q hq
    · intro id inner hl m
      rw [show ({ g with links := insertM (UOrd.new a b) v g.links } : Graph N L).nodes =
        g.nodes from rfl] at hl
      show m ∈ inner.neighbors ↔
        (lookupM (UOrd.new id m) (insertM (UOrd.new a b) v g.links)).isSome = true
      rw [hsame]
      exact hcons id inner hl m
  · -- a genuinely new link: both adjacency sets gain the other endpoint
    have hlt : (UOrd.new a b).min < (UOrd.new a b).max := UOrd.new_lt_of_ne hab
    have hne : (UOrd.new a b).min ≠ (UOrd.new a b).max := ne_of_lt hlt
    set p := UOrd.new a b with hpdef
    have hnodes1 : ∀ k, lookupM k
        (insertM p.max ⟨i2.value, insertS p.min i2.neighbors⟩
          (insertM p.min ⟨i1.value, insertS p.max i1.neighbors⟩ g.nodes)) =
        if p.max = k then some ⟨i2.value, insertS p.min i2.neighbors⟩
        else if p.min = k then some ⟨i1.value, insertS p.max i1.neighbors⟩
        else lookupM k g.nodes := by
      intro k
      rw [lookupM_insertM, lookupM_insertM]
    have hlinks1 : ∀ q, lookupM q (insertM p v g.links) =
        if p = q then some v else lookupM q g.links := fun q => lookupM_insertM q p v g.links
    have hminmem : p.min ∈ g.nodes.map Prod.fst :=
      lookupM_isSome_iff.mp (by rw [h1]; rfl)
    have hkeys : (insertM p.max ⟨i2.value, insertS p.min i2.neighbors⟩
        (insertM p.min ⟨i1.value, insertS p.max i1.neighbors⟩ g.nodes)).map Prod.fst =
        g.nodes.map Prod.fst := by
      have hmaxmem : p.max ∈
          (insertM p.min (⟨i1.value, insertS p.max i1.neighbors⟩ : NodeInner N)
            g.nodes).map Prod.fst := by
        rw [map_fst_insertM_of_mem _ hminmem]
        exact lookupM_isSome_iff.mp (by rw [h2]; rfl)
      rw [map_fst_insertM_of_mem _ hmaxmem, map_fst_insertM_of_mem _ hminmem]
    have hpres : ∀ k, (lookupM k g.nodes).isSome = true →
        (lookupM k (insertM p.max ⟨i2.value, insertS p.min i2.neighbors⟩
          (insertM p.min ⟨i1.value, insertS p.max i1.neighbors⟩ g.nodes))).isSome = true := by
      intro k hk
      rw [hnodes1]
      by_cases hk2 : p.max = k
      · rw [if_pos hk2]; rfl
      · rw [if_neg hk2]
        by_cases hk1 : p.min = k
        · rw [if_pos hk1]; rfl
        · rw [if_neg hk1]; exact hk
    refine ⟨⟨?_, ?_, ?_⟩, ?_, ?_, ?_⟩
    · show ((insertM p.max ⟨i2.value, insertS p.min i2.neighbors⟩
        (insertM p.min ⟨i1.value, insertS p.max i1.neighbors⟩ g.nodes)).map Prod.fst).Nodup
      rw [hkeys]
      exact hnodes
    · exact nodup_map_fst_insertM_of_none hlinks hp
    · intro id inner hl
      rw [show ({ g with nodes := _, links := _ } : Graph N L).nodes = _ from rfl,
        hnodes1] at hl
      by_cases hk2 : p.max = id
      · rw [if_pos hk2] at hl
        cases hl
        exact nodup_insertS (hnbrs p.max i2 h2)
      · rw [if_neg hk2] at hl
        by_cases hk1 : p.min = id
        · rw [if_pos hk1] at hl
          cases hl
          exact nodup_insertS (hnbrs p.min i1 h1)
        · rw [if_neg hk1] at hl
          exact hnbrs id inner hl
    · intro q hq
      rw [show ({ g with nodes := _, links := _ } : Graph N L).links = insertM p v g.links
        from rfl, hlinks1] at hq
      by_cases hpq : p = q
      · subst hpq
        refine ⟨hlt, ?_, ?_⟩ <;> [exact hpres _ (by rw [h1]; rfl);
          exact hpres _ (by rw [h2]; rfl)]
      · rw [if_neg hpq] at hq
        obtain ⟨hqlt, hq1, hq2⟩ := hlw q hq
        exact ⟨hqlt, hpres _ hq1, hpres _ hq2⟩
    · intro id inner hl m
      rw [show ({ g with nodes := _, links := _ } : Graph N L).nodes = _ from rfl,
        hnodes1] at hl
      show m ∈ inner.neighbors ↔ (lookupM (UOrd.new id m) (insertM p v g.links)).isSome = true
      rw [hlinks1]
      by_cases hk2 : p.max = id
      · subst hk2
        rw [if_pos rfl] at hl
        cases hl
        by_cases hqm : UOrd.new p.max m = p
        · rw [if_pos hqm.symm]
          simp only [mem_insertS, Option.isSome_some, iff_true]
          exact Or.inl ((UOrd.new_eq_right_iff hlt).mp hqm)
        · rw [if_neg (fun hc => hqm hc.symm)]
          simp only [mem_insertS]
          have hm : m ≠ p.min := fun hc => hqm ((UOrd.new_eq_right_iff hlt).mpr hc)
          rw [or_iff_right hm]
          exact hcons p.max i2 h2 m
      · rw [if_neg hk2] at hl
        by_cases hk1 : p.min = id
        · subst hk1
          rw [if_pos rfl] at hl
          cases hl
          by_cases hqm : UOrd.new p.min m = p
          · rw [if_pos hqm.symm]
            simp only [mem_insertS, Option.isSome_some, iff_true]
            exact Or.inl ((UOrd.new_eq_left_iff hlt).mp hqm)
          · rw [if_neg (fun hc => hqm hc.symm)]
            simp only [mem_insertS]
            have hm : m ≠ p.max := fun hc => hqm ((UOrd.new_eq_left_iff hlt).mpr hc)
            rw [or_iff_right hm]
            exact hcons p.min i1 h1 m
        · rw [if_neg hk1] at hl
          have hqm : UOrd.new id m ≠ p := by
            intro hc
            rcases UOrd.new_eq_endpoint hc with hc' | hc'
            · exact hk1 hc'.symm
            · exact hk2 hc'.symm
          rw [if_neg (fun hc => hqm hc.symm)]
          exact hcons id inner hl m
    · intro id hl
      rw [show ({ g with nodes := _, links := _ } : Graph N L).nodes = _ from rfl] at hl
      rw [lookupM_isSome_iff, hkeys, ← lookupM_isSome_iff] at hl
      exact hid id hl

theorem removeLink_absent {N L : Type} {g : Graph N L} (a b : Nat)
    (h : lookupM (UOrd.new a b) g.links = none) : removeLink g a b = .ok (none, g) := by
  simp [removeLink, h]

theorem removeLink_present {N L : Type} {g : Graph N L} {a b : Nat} {v : L}
    {i1 i2 : NodeInner N}
    (hv : lookupM (UOrd.new a b) g.links = some v)
    (hne : (UOrd.new a b).min ≠ (UOrd.new a b).max)
    (h1 : lookupM (UOrd.new a b).min g.nodes = some i1)
    (h2 : lookupM (UOrd.new a b).max g.nodes = some i2) :
    removeLink g a b = .ok (some v,
      { g with
        nodes :=
          insertM (UOrd.new a b).max ⟨i2.value, removeS (UOrd.new a b).min i2.neighbors⟩
            (insertM (UOrd.new a b).min ⟨i1.value, removeS (UOrd.new a b).max i1.neighbors⟩
              g.nodes),
        links := eraseM (UOrd.new a b) g.links }) := by
  simp [removeLink, hv, h1, h2, lookupM_insertM, hne]

theorem removeLink_ok_cases {N L : Type} {g g' : Graph N L} {a b : Nat} {r : Option L}
    (hlw : LinksWF g) (heq : removeLink g a b = .ok (r, g')) :
    (lookupM (UOrd.new a b) g.links = none ∧ r = none ∧ g' = g) ∨
    (∃ v i1 i2, lookupM (UOrd.new a b) g.links = some v ∧
      lookupM (UOrd.new a b).min g.nodes = some i1 ∧
      lookupM (UOrd.new a b).max g.nodes = some i2 ∧ r = some v ∧
      g' = { g with
        nodes :=
          insertM (UOrd.new a b).max ⟨i2.value, removeS (UOrd.new a b).min i2.neighbors⟩
            (insertM (UOrd.new a b).min ⟨i1.value, removeS (UOrd.new a b).max i1.neighbors⟩
              g.nodes),
        links := eraseM (UOrd.new a b) g.links }) := by
  cases hv : lookupM (UOrd.new a b) g.links with
  | none =>
    rw [removeLink_absent a b hv] at heq
    injection heq with heq
    injection heq with heq1 heq2
    exact Or.inl ⟨rfl, heq1.symm, heq2.symm⟩
  | some v =>
    have hne : (UOrd.new a b).min ≠ (UOrd.new a b).max :=
      ne_of_lt (hlw _ (by rw [hv]; rfl)).1
    have hs1 : (lookupM (UOrd.new a b).min g.nodes).isSome = true :=
      (hlw _ (by rw [hv]; rfl)).2.1
    have hs2 : (lookupM (UOrd.new a b).max g.nodes).isSome = true :=
      (hlw _ (by rw [hv]; rfl)).2.2
    obtain ⟨i1, h1⟩ := Option.isSome_iff_exists.mp hs1
    obtain ⟨i2, h2⟩ := Option.isSome_iff_exists.mp hs2
    rw [removeLink_present hv hne h1 h2] at heq
    injection heq with heq
    injection heq with heq1 heq2
    exact Or.inr ⟨v, i1, i2, rfl, h1, h2, heq1.symm, heq2.symm⟩

theorem graphInv_removeLink {N L : Type} {g g' : Graph N L} {a b : Nat} {r : Option L}
    (h : GraphInv g) (heq : removeLink g a b = .ok (r, g')) : GraphInv g' := by
  obtain ⟨⟨hnodes, hlinks, hnbrs⟩, hlw, hcons, hid⟩ := h
  rcases removeLink_ok_cases hlw heq with ⟨-, -, rfl⟩ | ⟨v, i1, i2, hv, h1, h2, -, rfl⟩
  · exact ⟨⟨hnodes, hlinks, hnbrs⟩, hlw, hcons, hid⟩
  · have hlt : (UOrd.new a b).min < (UOrd.new a b).max := (hlw _ (by rw [hv]; rfl)).1
    have hne : (UOrd.new a b).min ≠ (UOrd.new a b).max := ne_of_lt hlt
    set p := UOrd.new a b with hpdef
    have hnodes1 : ∀ k, lookupM k
        (insertM p.max ⟨i2.value, removeS p.min i2.neighbors⟩
          (insertM p.min ⟨i1.value, removeS p.max i1.neighbors⟩ g.nodes)) =
        if p.max = k then some ⟨i2.value, removeS p.min i2.neighbors⟩
        else if p.min = k then some ⟨i1.value, removeS p.max i1.neighbors⟩
        else lookupM k g.nodes := by
      intro k
      rw [lookupM_insertM, lookupM_insertM]
    have hlinks1 : ∀ q, lookupM q (eraseM p g.links) =
        if p = q then none else lookupM q g.links := fun q => lookupM_eraseM hlinks
    have hminmem : p.min ∈ g.nodes.map Prod.fst :=
      lookupM_isSome_iff.mp (by rw [h1]; rfl)
    have hkeys : (insertM p.max ⟨i2.value, removeS p.min i2.neighbors⟩
        (insertM p.min ⟨i1.value, removeS p.max i1.neighbors⟩ g.nodes)).map Prod.fst =
        g.nodes.map Prod.fst := by
      have hmaxmem : p.max ∈
          (insertM p.min (⟨i1.value, removeS p.max i1.neighbors⟩ : NodeInner N)
            g.nodes).map Prod.fst := by
        rw [map_fst_insertM_of_mem _ hminmem]
        exact lookupM_isSome_iff.mp (by rw [h2]; rfl)
      rw [map_fst_insertM_of_mem _ hmaxmem, map_fst_insertM_of_mem _ hminmem]
    have hpres : ∀ k, (lookupM k g.nodes).isSome = true →
        (lookupM k (insertM p.max ⟨i2.value, removeS p.min i2.neighbors⟩
          (insertM p.min ⟨i1.value, removeS p.max i1.neighbors⟩ g.nodes))).isSome = true := by
      intro k hk
      rw [hnodes1]
      by_cases hk2 : p.max = k
      · rw [if_pos hk2]; rfl
      · rw [if_neg hk2]
        by_cases hk1 : p.min = k
        · rw [if_pos hk1]; rfl
        · rw [if_neg hk1]; exact hk
    refine ⟨⟨?_, ?_, ?_⟩, ?_, ?_, ?_⟩
    · show ((insertM p.max ⟨i2.value, removeS p.min i2.neighbors⟩
        (insertM p.min ⟨i1.value, removeS p.max i1.neighbors⟩ g.nodes)).map Prod.fst).Nodup
      rw [hkeys]
      exact hnodes
    · exact (map_fst_eraseM_sublist p g.links).nodup hlinks
    · intro id inner hl
      rw [show ({ g with nodes := _, links := _ } : Graph N L).nodes = _ from rfl,
        hnodes1] at hl
      by_cases hk2 : p.max = id
      · rw [if_pos hk2] at hl
        cases hl
        exact nodup_removeS (hnbrs p.max i2 h2)
      · rw [if_neg hk2] at hl
        by_cases hk1 : p.min = id
        · rw [if_pos hk1] at hl
          cases hl
          exact nodup_removeS (hnbrs p.min i1 h1)
        · rw [if_neg hk1] at hl
          exact hnbrs id inner hl
    · intro q hq
      rw [show ({ g with nodes := _, links := _ } : Graph N L).links = eraseM p g.links
        from rfl, hlinks1] at hq
      by_cases hpq : p = q
      · rw [if_pos hpq] at hq
        cases hq
      · rw [if_neg hpq] at hq
        obtain ⟨hqlt, hq1, hq2⟩ := hlw q hq
        exact ⟨hqlt, hpres _ hq1, hpres _ hq2⟩
    · intro id inner hl m
      rw [show ({ g with nodes := _, links := _ } : Graph N L).nodes = _ from rfl,
        hnodes1] at hl
      show m ∈ inner.neighbors ↔ (lookupM (UOrd.new id m) (eraseM p g.links)).isSome = true
      rw [hlinks1]
      by_cases hk2 : p.max = id
      · subst hk2
        rw [if_pos rfl] at hl
        cases hl
        by_cases hqm : UOrd.new p.max m = p
        · rw [if_pos hqm.symm]
          simp only [mem_removeS, Option.isSome_none, Bool.false_eq_true, iff_false]
          intro hcontra
          exact hcontra.2 ((UOrd.new_eq_right_iff hlt).mp hqm)
        · rw [if_neg (fun hc => hqm hc.symm)]
          simp only [mem_removeS]
          have hm : m ≠ p.min := fun hc => hqm ((UOrd.new_eq_right_iff hlt).mpr hc)
          rw [and_iff_left hm]
          exact hcons p.max i2 h2 m
      · rw [if_neg hk2] at hl
        by_cases hk1 : p.min = id
        · subst hk1
          rw [if_pos rfl] at hl
          cases hl
          by_cases hqm : UOrd.new p.min m = p
          · rw [if_pos hqm.symm]
            simp only [mem_removeS, Option.isSome_none, Bool.false_eq_true, iff_false]
            intro hcontra
            exact hcontra.2 ((UOrd.new_eq_left_iff hlt).mp hqm)
          · rw [if_neg (fun hc => hqm hc.symm)]
            simp only [mem_removeS]
            have hm : m ≠ p.max := fun hc => hqm ((UOrd.new_eq_left_iff hlt).mpr hc)
            rw [and_iff_left hm]
            exact hcons p.min i1 h1 m
        · rw [if_neg hk1] at hl
          have hqm : UOrd.new id m ≠ p := by
            intro hc
            rcases UOrd.new_eq_endpoint hc with hc' | hc'
            · exact hk1 hc'.symm
            · exact hk2 hc'.symm
          rw [if_neg (fun hc => hqm hc.symm)]
          exact hcons id inner hl m
    · intro id hl
      rw [show ({ g with nodes := _, links := _ } : Graph N L).nodes = _ from rfl] at hl
      rw [lookupM_isSome_iff, hkeys, ← lookupM_isSome_iff] at hl
      exact hid id hl

theorem removeNodeLoop_spec {N L : Type} (id : Nat) (rest : List Nat) :
    ∀ (g : Graph N L),
    (g.nodes.map Prod.fst).Nodup →
    (g.links.map Prod.fst).Nodup →
    rest.Nodup →
    (∀ m ∈ rest, m ≠ id) →
    (∀ m ∈ rest, (lookupM m g.nodes).isSome = true) →
    (∀ m ∈ rest, (lookupM (UOrd.new m id) g.links).isSome = true) →
    ∃ ws g', removeNodeLoop id rest g = .ok (ws, g') ∧
      ws = rest.filterMap (fun m => lookupM (UOrd.new m id) g.links) ∧
      (∀ q : UOrd Nat, lookupM q g'.links =
        if ∃ m ∈ rest, q = UOrd.new m id then none else lookupM q g.links) ∧
      (∀ n, lookupM n g'.nodes = (lookupM n g.nodes).map
        (fun i => if n ∈ rest then ⟨i.value, removeS id i.neighbors⟩ else i)) ∧
      g'.nodes.map Prod.fst = g.nodes.map Prod.fst ∧
      (g'.links.map Prod.fst).Sublist (g.links.map Prod.fst) ∧
      g'.id_context = g.id_context := by
  induction rest with
  | nil =>
    intro g hn hk _ _ _ _
    refine ⟨[], g, rfl, rfl, ?_, ?_, rfl, List.Sublist.refl _, rfl⟩
    · intro q
      simp
    · intro n
      simp
  | cons m rest ih =>
    intro g hn hk hrnd hne hpres hplinks
    have hmr : m ∉ rest := (List.nodup_cons.mp hrnd).1
    have hrnd' : rest.Nodup := (List.nodup_cons.mp hrnd).2
    have hm_ne : m ≠ id := hne m (List.mem_cons_self m rest)
    obtain ⟨i, hi⟩ := Option.isSome_iff_exists.mp (hpres m (List.mem_cons_self m rest))
    obtain ⟨w, hw⟩ := Option.isSome_iff_exists.mp (hplinks m (List.mem_cons_self m rest))
    have hmmem : m ∈ g.nodes.map Prod.fst := lookupM_isSome_iff.mp (by rw [hi]; rfl)
    have hn2 : ((insertM m (⟨i.value, removeS id i.neighbors⟩ : NodeInner N)
        g.nodes).map Prod.fst).Nodup := by
      rw [map_fst_insertM_of_mem _ hmmem]
      exact hn
    have hk2 : ((eraseM (UOrd.new m id) g.links).map Prod.fst).Nodup :=
      (map_fst_eraseM_sublist _ _).nodup hk
    have hne' : ∀ m' ∈ rest, m' ≠ id := fun m' h => hne m' (List.mem_cons_of_mem m h)
    have hkey_ne : ∀ m' ∈ rest, UOrd.new m id ≠ UOrd.new m' id := by
      intro m' hm' hc
      rcases UOrd.new_eq_new_iff.mp hc with ⟨hc1, -⟩ | ⟨hc1, -⟩
      · exact hmr (hc1 ▸ hm')
      · exact hm_ne hc1
    have hpres' : ∀ m' ∈ rest, (lookupM m'
        (insertM m (⟨i.value, removeS id i.neighbors⟩ : NodeInner N)
          g.nodes)).isSome = true := by
      intro m' hm'
      rw [lookupM_insertM]
      by_cases hmm : m = m'
      · rw [if_pos hmm]
        rfl
      · rw [if_neg hmm]
        exact hpres m' (List.mem_cons_of_mem m hm')
    have hplinks' : ∀ m' ∈ rest,
        (lookupM (UOrd.new m' id) (eraseM (UOrd.new m id) g.links)).isSome = true := by
      intro m' hm'
      rw [lookupM_eraseM hk, if_neg (hkey_ne m' hm')]
      exact hplinks m' (List.mem_cons_of_mem m hm')
    obtain ⟨ws, g', hrun, hwseq, hlinks', hnodes', hkeys', hsub', hctx'⟩ :=
      ih (⟨g.id_context, insertM m ⟨i.value, removeS id i.neighbors⟩ g.nodes,
        eraseM (UOrd.new m id) g.links⟩ : Graph N L) hn2 hk2 hrnd' hne' hpres' hplinks'
    refine ⟨w :: ws, g', ?_, ?_, ?_, ?_, ?_, ?_, ?_⟩
    · rw [removeNodeLoop]
      dsimp only
      rw [hi]
      dsimp only
      rw [hw]
      dsimp only
      rw [hrun]
    · have hcongr : rest.filterMap
          (fun m' => lookupM (UOrd.new m' id) (eraseM (UOrd.new m id) g.links)) =
          rest.filterMap (fun m' => lookupM (UOrd.new m' id) g.links) :=
        List.filterMap_congr fun m' hm' => by
          rw [lookupM_eraseM hk, if_neg (hkey_ne m' hm')]
      rw [hwseq, hcongr, List.filterMap_cons, hw]
    · intro q
      rw [hlinks' q, lookupM_eraseM hk]
      by_cases hql : ∃ m' ∈ rest, q = UOrd.new m' id
      · obtain ⟨m', hm', hq⟩ := hql
        rw [if_pos ⟨m', hm', hq⟩, if_pos ⟨m', List.mem_cons_of_mem m hm', hq⟩]
      · rw [if_neg hql]
        by_cases hqm : UOrd.new m id = q
        · rw [if_pos hqm, if_pos ⟨m, List.mem_cons_self m rest, hqm.symm⟩]
        · rw [if_neg hqm, if_neg ?hnot]
          case hnot =>
            rintro ⟨m', hm', hq⟩
            rcases List.mem_cons.mp hm' with rfl | hm'r
            · exact hqm hq.symm
            · exact hql ⟨m', hm'r, hq⟩
    · intro n
      rw [hnodes' n]
      dsimp only
      rw [lookupM_insertM]
      by_cases hnm : m = n
      · subst hnm
        rw [if_pos rfl, hi]
        have h1 : (m ∈ rest) = False := eq_false hmr
        have h2 : (m ∈ m :: rest) = True := eq_true (List.mem_cons_self m rest)
        simp only [Option.map_some', h1, h2, if_false, if_true]
      · rw [if_neg hnm]
        cases hln : lookupM n g.nodes with
        | none => rfl
        | some j =>
          have hmem : (n ∈ rest) = (n ∈ m :: rest) := by
            simp only [List.mem_cons]
            rw [eq_iff_iff]
            constructor
            · exact Or.inr
            · rintro (rfl | h')
              · exact absurd rfl hnm
              · exact h'
          simp only [Option.map_some', hmem]
    · rw [hkeys']
      exact map_fst_insertM_of_mem _ hmmem
    · exact hsub'.trans (map_fst_eraseM_sublist _ _)
    · exact hctx'

theorem UOrd.new_self {T : Type} [LinearOrder T] (a : T) : UOrd.new a a = ⟨a, a⟩ := by
  simp [UOrd.new]

theorem removeNode_absent {N L : Type} {g : Graph N L} {id : Nat}
    (h : lookupM id g.nodes = none) : removeNode g id = .ok (none, g) := by
  simp [removeNode, h]

theorem removeNode_present_spec {N L : Type} {g : Graph N L} {id : Nat} {i : NodeInner N}
    (hnodes : (g.nodes.map Prod.fst).Nodup)
    (hlinks : (g.links.map Prod.fst).Nodup)
    (hnbrs : ∀ n inner, lookupM n g.nodes = some inner → inner.neighbors.Nodup)
    (hlw : LinksWF g) (hcons : Consistent g)
    (hl : lookupM id g.nodes = some i) :
    ∃ ws g', removeNode g id = .ok (some (i.value, ws), g') ∧
      ws = i.neighbors.filterMap (fun m => lookupM (UOrd.new m id) g.links) ∧
      (∀ q : UOrd Nat, lookupM q g'.links =
        if q.containsB id then none else lookupM q g.links) ∧
      (∀ n, lookupM n g'.nodes = if n = id then none
        else (lookupM n g.nodes).map (fun j => ⟨j.value, removeS id j.neighbors⟩)) ∧
      g'.nodes.map Prod.fst = (eraseM id g.nodes).map Prod.fst ∧
      (g'.links.map Prod.fst).Sublist (g.links.map Prod.fst) ∧
      g'.id_context = g.id_context := by
  have hnbr_link : ∀ m ∈ i.neighbors, (lookupM (UOrd.new id m) g.links).isSome = true :=
    fun m hm => (hcons id i hl m).mp hm
  have hne : ∀ m ∈ i.neighbors, m ≠ id := by
    intro m hm hmeq
    subst hmeq
    have hs := hnbr_link m hm
    have hlt := (hlw _ hs).1
    rw [UOrd.new_self] at hlt
    exact lt_irrefl _ hlt
  have hpres0 : ∀ m ∈ i.neighbors, (lookupM m (eraseM id g.nodes)).isSome = true := by
    intro m hm
    have hs := hnbr_link m hm
    obtain ⟨-, hs1, hs2⟩ := hlw _ hs
    have hmem : (lookupM m g.nodes).isSome = true := by
      rcases UOrd.new_endpoint_pair id m with ⟨-, hmax⟩ | ⟨hmin, -⟩
      · rw [hmax] at hs2
        exact hs2
      · rw [hmin] at hs1
        exact hs1
    rw [lookupM_eraseM hnodes, if_neg (fun hc : id = m => hne m hm hc.symm)]
    exact hmem
  have hplinks0 : ∀ m ∈ i.neighbors,
      (lookupM (UOrd.new m id) g.links).isSome = true := by
    intro m hm
    rw [UOrd.new_comm]
    exact hnbr_link m hm
  obtain ⟨ws, g', hrun, hwseq, hlinksF, hnodesF, hkeysF, hsubF, hctxF⟩ :=
    removeNodeLoop_spec id i.neighbors
      (⟨g.id_context, eraseM id g.nodes, g.links⟩ : Graph N L)
      ((map_fst_eraseM_sublist _ _).nodup hnodes) hlinks (hnbrs id i hl) hne
      hpres0 hplinks0
  refine ⟨ws, g', ?_, hwseq, ?_, ?_, hkeysF, hsubF, hctxF⟩
  · rw [removeNode, hl]
    dsimp only
    rw [hrun]
  · intro q
    rw [hlinksF q]
    by_cases hc : q.containsB id = true
    · rw [if_pos hc]
      by_cases hex : ∃ m ∈ i.neighbors, q = UOrd.new m id
      · rw [if_pos hex]
      · rw [if_neg hex]
        cases hlq : lookupM q g.links with
        | none => rfl
        | some v =>
          exfalso
          obtain ⟨hqlt, -, -⟩ := hlw q (by rw [hlq]; rfl)
          have hnorm : UOrd.new q.min q.max = q := UOrd.new_of_norm (le_of_lt hqlt)
          rcases Bool.or_eq_true_iff.mp hc with hcmin | hcmax
          · have hqmin : q.min = id := of_decide_eq_true hcmin
            have hq_eq : q = UOrd.new q.max id := by
              rw [← hqmin, UOrd.new_comm]
              exact hnorm.symm
            have hmem : q.max ∈ i.neighbors := by
              rw [hcons id i hl q.max, ← hqmin, hnorm, hlq]
              rfl
            exact hex ⟨q.max, hmem, hq_eq⟩
          · have hqmax : q.max = id := of_decide_eq_true hcmax
            have hq_eq : q = UOrd.new q.min id := by
              rw [← hqmax]
              exact hnorm.symm
            have hmem : q.min ∈ i.neighbors := by
              rw [hcons id i hl q.min, UOrd.new_comm, ← hqmax, hnorm, hlq]
              rfl
            exact hex ⟨q.min, hmem, hq_eq⟩
    · rw [if_neg hc, if_neg ?hnot]
      case hnot =>
        rintro ⟨m, hm, rfl⟩
        exact hc (UOrd.containsB_new_iff.mpr (Or.inr rfl))
  · intro n
    rw [hnodesF n]
    dsimp only
    rw [lookupM_eraseM hnodes]
    by_cases hn_id : n = id
    · rw [if_pos hn_id.symm, if_pos hn_id]
      rfl
    · rw [if_neg (fun hc : id = n => hn_id hc.symm), if_neg hn_id]
      cases hln : lookupM n g.nodes with
      | none => rfl
      | some j =>
        simp only [Option.map_some']
        by_cases hin : n ∈ i.neighbors
        · rw [if_pos hin]
        · rw [if_neg hin]
          have hid_not : id ∉ j.neighbors := by
            rw [hcons n j hln id, UOrd.new_comm]
            have : (lookupM (UOrd.new id n) g.links).isSome = false := by
              rw [Bool.eq_false_iff]
              intro hs
              exact hin ((hcons id i hl n).mpr hs)
            rw [this]
            exact Bool.false_ne_true
          rw [removeS_eq_self_of_notMem hid_not]

theorem graphInv_removeNode {N L : Type} {g g' : Graph N L} {id : Nat}
    {r : Option (N × List L)} (h : GraphInv g) (heq : removeNode g id = .ok (r, g')) :
    GraphInv g' := by
  obtain ⟨⟨hnodes, hlinks, hnbrs⟩, hlw, hcons, hid⟩ := h
  cases hl : lookupM id g.nodes with
  | none =>
    rw [removeNode_absent hl] at heq
    injection heq with heq
    injection heq with heq1 heq2
    subst heq2
    exact ⟨⟨hnodes, hlinks, hnbrs⟩, hlw, hcons, hid⟩
  | some i =>
    obtain ⟨ws, g'', hrun, -, hlinksF, hnodesF, hkeysF, hsubF, hctxF⟩ :=
      removeNode_present_spec hnodes hlinks hnbrs hlw hcons hl
    rw [hrun] at heq
    injection heq with heq
    injection heq with heq1 heq2
    subst heq2
    refine ⟨⟨?_, hsubF.nodup hlinks, ?_⟩, ?_, ?_, ?_⟩
    · rw [hkeysF]
      exact (map_fst_eraseM_sublist _ _).nodup hnodes
    · intro n inner hn
      rw [hnodesF n] at hn
      by_cases hn_id : n = id
      · rw [if_pos hn_id] at hn
        cases hn
      · rw [if_neg hn_id] at hn
        cases hln : lookupM n g.nodes with
        | none => rw [hln] at hn; cases hn
        | some j =>
          rw [hln, Option.map_some'] at hn
          injection hn with hn
          subst hn
          exact nodup_removeS (hnbrs n j hln)
    · intro q hq
      rw [hlinksF q] at hq
      by_cases hc : q.containsB id = true
      · rw [if_pos hc] at hq
        cases hq
      · rw [if_neg hc] at hq
        obtain ⟨hqlt, hq1, hq2⟩ := hlw q hq
        have hcmin : q.min ≠ id := by
          intro hcon
          exact hc (Bool.or_eq_true_iff.mpr (Or.inl (decide_eq_true hcon)))
        have hcmax : q.max ≠ id := by
          intro hcon
          exact hc (Bool.or_eq_true_iff.mpr (Or.inr (decide_eq_true hcon)))
        refine ⟨hqlt, ?_, ?_⟩
        · obtain ⟨j, hlq⟩ := Option.isSome_iff_exists.mp hq1
          rw [hnodesF q.min, if_neg hcmin, hlq]
          rfl
        · obtain ⟨j, hlq⟩ := Option.isSome_iff_exists.mp hq2
          rw [hnodesF q.max, if_neg hcmax, hlq]
          rfl
    · intro n inner hn m
      rw [hnodesF n] at hn
      by_cases hn_id : n = id
      · rw [if_pos hn_id] at hn
        cases hn
      · rw [if_neg hn_id] at hn
        cases hln : lookupM n g.nodes with
        | none => rw [hln] at hn; cases hn
        | some j =>
          rw [hln, Option.map_some'] at hn
          injection hn with hn
          subst hn
          show m ∈ removeS id j.neighbors ↔ _
          rw [hlinksF (UOrd.new n m)]
          by_cases hmid : m = id
          · subst hmid
            have hcont : (UOrd.new n m).containsB m = true :=
              UOrd.containsB_new_iff.mpr (Or.inr rfl)
            rw [if_pos hcont]
            simp only [mem_removeS, Option.isSome_none, Bool.false_eq_true, iff_false]
            intro hcontra
            exact hcontra.2 rfl
          · have hcont : (UOrd.new n m).containsB id = false := by
              rw [Bool.eq_false_iff]
              intro hcon
              rcases UOrd.containsB_new_iff.mp hcon with h' | h'
              · exact hn_id h'
              · exact hmid h'
            rw [if_neg (by rw [hcont]; exact Bool.false_ne_true)]
            simp only [mem_removeS]
            rw [and_iff_left hmid]
            exact hcons n j hln m
    · intro n hn
      rw [hctxF]
      rw [hnodesF n] at hn
      by_cases hn_id : n = id
      · rw [if_pos hn_id] at hn
        cases hn
      · rw [if_neg hn_id] at hn
        cases hln : lookupM n g.nodes with
        | none => rw [hln] at hn; cases hn
        | some j => exact hid n (by rw [hln]; rfl)

theorem graphInv_extendLinks {N L : Type} (items : List ((Nat × Nat) × L)) :
    ∀ {g g' : Graph N L}, GraphInv g → extendLinks g items = .ok g' → GraphInv g' := by
  induction items with
  | nil =>
    intro g g' h heq
    injection heq with heq
    subst heq
    exact h
  | cons item rest ih =>
    intro g g' h heq
    rw [extendLinks] at heq
    cases haddl : addLink g item.2 item.1.1 item.1.2 with
    | error gbad => rw [haddl] at heq; cases heq
    | ok pr =>
      obtain ⟨r, g1⟩ := pr
      rw [haddl] at heq
      exact ih (graphInv_addLink h haddl) heq

theorem graphInv_empty {N L : Type} : GraphInv (Graph.new : Graph N L) := by
  refine ⟨⟨List.nodup_nil, List.nodup_nil, ?_⟩, ?_, ?_, ?_⟩
  · intro id inner hl
    cases hl
  · intro p hp
    cases hp
  · intro id inner hl
    cases hl
  · intro id hl
    cases hl

theorem not_isEmpty_of_mem {x : Nat} {s : List Nat} (h : x ∈ s) : (!s.isEmpty) = true := by
  cases s with
  | nil => cases h
  | cons a t => rfl

theorem graphInv_removeOrphanedNodes {N L : Type} {g : Graph N L} (h : GraphInv g) :
    GraphInv (removeOrphanedNodes g) := by
  obtain ⟨⟨hnodes, hlinks, hnbrs⟩, hlw, hcons, hid⟩ := h
  have hform : ∀ k, lookupM k (removeOrphanedNodes g).nodes =
      (lookupM k g.nodes).bind
        (fun i => if !i.neighbors.isEmpty then some i else none) := by
    intro k
    exact lookupM_filter _ hnodes
  have hsome : ∀ k i, lookupM k (removeOrphanedNodes g).nodes = some i →
      lookupM k g.nodes = some i ∧ i.neighbors ≠ [] := by
    intro k i hk
    rw [hform k] at hk
    cases hlk : lookupM k g.nodes with
    | none => rw [hlk] at hk; cases hk
    | some j =>
      rw [hlk] at hk
      rw [Option.some_bind] at hk
      by_cases hj : !j.neighbors.isEmpty
      · rw [if_pos hj] at hk
        injection hk with hk
        subst hk
        refine ⟨rfl, ?_⟩
        simp only [Bool.not_eq_true'] at hj
        exact fun hc => by simp [hc] at hj
      · rw [if_neg hj] at hk
        cases hk
  refine ⟨⟨?_, hlinks, ?_⟩, ?_, ?_, ?_⟩
  · exact ((List.filter_sublist g.nodes).map Prod.fst).nodup hnodes
  · intro id inner hl
    exact hnbrs id inner (hsome id inner hl).1
  · intro q hq
    obtain ⟨hqlt, hq1, hq2⟩ := hlw q hq
    obtain ⟨i1, h1⟩ := Option.isSome_iff_exists.mp hq1
    obtain ⟨i2, h2⟩ := Option.isSome_iff_exists.mp hq2
    have hnorm : UOrd.new q.min q.max = q := UOrd.new_of_norm (le_of_lt hqlt)
    have hmem1 : q.max ∈ i1.neighbors := by
      rw [hcons q.min i1 h1 q.max, hnorm]
      exact hq
    have hmem2 : q.min ∈ i2.neighbors := by
      rw [hcons q.max i2 h2 q.min, UOrd.new_comm, hnorm]
      exact hq
    refine ⟨hqlt, ?_, ?_⟩
    · rw [hform q.min, h1, Option.some_bind, if_pos (not_isEmpty_of_mem hmem1)]
      rfl
    · rw [hform q.max, h2, Option.some_bind, if_pos (not_isEmpty_of_mem hmem2)]
      rfl
  · intro id inner hl m
    exact hcons id inner (hsome id inner hl).1 m
  · intro id hl
    obtain ⟨i, hi⟩ := Option.isSome_iff_exists.mp hl
    exact hid id (by rw [(hsome id i hi).1]; rfl)

theorem reachable_graphInv {N L : Type} {g : Graph N L} (h : Reachable g) :
    GraphInv g := by
  induction h with
  | empty => exact graphInv_empty
  | step op hre heq ih =>
    cases op with
    | addNode v =>
      simp only [applyOp] at heq
      injection heq with heq
      subst heq
      exact graphInv_addNode ih v
    | addLink v a b =>
      simp only [applyOp] at heq
      cases haddl : addLink _ v a b with
      | error gbad => rw [haddl] at heq; cases heq
      | ok pr =>
        obtain ⟨r, g1⟩ := pr
        rw [haddl] at heq
        injection heq with heq
        subst heq
        exact graphInv_addLink ih haddl
    | removeNode id =>
      simp only [applyOp] at heq
      cases hrem : removeNode _ id with
      | error gbad => rw [hrem] at heq; cases heq
      | ok pr =>
        obtain ⟨r, g1⟩ := pr
        rw [hrem] at heq
        injection heq with heq
        subst heq
        exact graphInv_removeNode ih hrem
    | removeLink a b =>
      simp only [applyOp] at heq
      cases hrem : removeLink _ a b with
      | error gbad => rw [hrem] at heq; cases heq
      | ok pr =>
        obtain ⟨r, g1⟩ := pr
        rw [hrem] at heq
        injection heq with heq
        subst heq
        exact graphInv_removeLink ih hrem
    | removeOrphanedNodes =>
      simp only [applyOp] at heq
      injection heq with heq
      subst heq
      exact graphInv_removeOrphanedNodes ih
    | extend items =>
      simp only [applyOp] at heq
      cases hext : extendLinks _ items with
      | error gbad => rw [hext] at heq; cases heq
      | ok g1 =>
        rw [hext] at heq
        injection heq with heq
        subst heq
        exact graphInv_extendLinks items ih hext

theorem mintMany_ge {n c x : Nat} (h : x ∈ mintMany c n) : c ≤ x := by
  induction n generalizing c with
  | zero => cases h
  | succ n ih =>
    rcases List.mem_cons.mp h with rfl | h'
    · exact le_refl _
    · exact le_of_lt (lt_of_lt_of_le (Nat.lt_succ_self c) (ih h'))

theorem mintMany_pairwise_lt (c n : Nat) :
    (mintMany c n).Pairwise (fun i j => i < j) := by
  induction n generalizing c with
  | zero => exact List.Pairwise.nil
  | succ n ih =>
    refine List.Pairwise.cons ?_ (ih (c + 1))
    intro x hx
    exact lt_of_lt_of_le (Nat.lt_succ_self c) (mintMany_ge hx)

theorem foldl_max_bound {as : List Nat} : ∀ {a x : Nat}, x ∈ a :: as → x ≤ as.foldl max a := by
  induction as with
  | nil =>
    intro a x h
    rcases List.mem_cons.mp h with rfl | h'
    · exact le_refl _
    · cases h'
  | cons b bs ih =>
    intro a x h
    rw [List.foldl_cons]
    rcases List.mem_cons.mp h with rfl | h'
    · exact le_trans (le_max_left x b) (ih (List.mem_cons_self _ _))
    · rcases List.mem_cons.mp h' with rfl | h''
      · exact le_trans (le_max_right a x) (ih (List.mem_cons_self _ _))
      · exact ih (List.mem_cons_of_mem _ h'')

theorem foldl_max_mem (as : List Nat) (a : Nat) : as.foldl max a ∈ a :: as := by
  induction as generalizing a with
  | nil => exact List.mem_cons_self _ _
  | cons b bs ih =>
    have := ih (max a b)
    rcases List.mem_cons.mp this with hm | hm
    · rcases max_choice a b with hc | hc
      · rw [List.foldl_cons, hm, hc]
        exact List.mem_cons_self _ _
      · rw [List.foldl_cons, hm, hc]
        exact List.mem_cons_of_mem _ (List.mem_cons_self _ _)
    · rw [List.foldl_cons]
      exact List.mem_cons_of_mem _ (List.mem_cons_of_mem _ hm)

theorem natMax_bound {l : List Nat} {x : Nat} (h : x ∈ l) :
    x < l.max?.elim 0 (· + 1) := by
  cases l with
  | nil => cases h
  | cons a as =>
    show x < (as.foldl max a) + 1
    exact Nat.lt_succ_of_le (foldl_max_bound h)

theorem natMax_mem {l : List Nat} (h : l ≠ []) :
    l.max?.elim 0 (· + 1) - 1 ∈ l := by
  cases l with
  | nil => exact absurd rfl h
  | cons a as =>
    show (as.foldl max a) + 1 - 1 ∈ a :: as
    rw [Nat.add_sub_cancel]
    exact foldl_max_mem as a

/-- C5: for every sequence of `next_id()` calls on a single `IdContext`,
the returned ids are pairwise distinct and strictly increasing in call
order. -/
theorem claimC5_id_uniqueness (c n : Nat) :
    (mintMany c n).Pairwise (fun i j => i < j) ∧ (mintMany c n).Nodup :=
  ⟨mintMany_pairwise_lt c n, (mintMany_pairwise_lt c n).imp ne_of_lt⟩

/-- C6: `add_link` with a pair of equal ids panics (modelled as
`Except.error` carrying the unchanged graph) rather than inserting a
self-link, ignoring the call, or returning an error value. -/
theorem claimC6_self_link_fatal {N L : Type} (g : Graph N L) (v : L) (a : Nat) :
    addLink g v a a = Except.error g :=
  addLink_self g v a

/-- C7: deserialization (`from_raw`) resumes the id context at one past the
maximum raw id over the node keys and link-key elements (0 when there are
none), so every subsequently minted id differs from every persisted id. -/
theorem claimC7_id_resume {N L : Type} (nodes : List (Nat × NodeInner N))
    (links : List (UOrd Nat × L)) :
    (persistedIds nodes links = [] → (fromRaw nodes links).id_context = 0) ∧
    (∀ x ∈ persistedIds nodes links, x < (fromRaw nodes links).id_context) ∧
    (persistedIds nodes links ≠ [] →
      (fromRaw nodes links).id_context - 1 ∈ persistedIds nodes links) ∧
    (∀ n x, x ∈ mintMany (fromRaw nodes links).id_context n →
      x ∉ persistedIds nodes links) := by
  refine ⟨?_, ?_, ?_, ?_⟩
  · intro h
    show (persistedIds nodes links).max?.elim 0 (· + 1) = 0
    rw [h]
    rfl
  · intro x hx
    exact natMax_bound hx
  · intro h
    exact natMax_mem h
  · intro n x hx hmem
    have h1 : (fromRaw nodes links).id_context ≤ x := mintMany_ge hx
    have h2 : x < (fromRaw nodes links).id_context := natMax_bound hmem
    omega

/-- Witness for C7 at a concrete raw node map and link map: the persisted
id 3 is strictly below the resumed counter. -/
theorem claimC7_witness :
    (3 : Nat) ∈ persistedIds [(3, (⟨10, []⟩ : NodeInner Nat))] [(⟨1, 5⟩, (7 : Nat))] ∧
    3 < (fromRaw [(3, (⟨10, []⟩ : NodeInner Nat))] [(⟨1, 5⟩, (7 : Nat))]).id_context :=
  ⟨by decide,
    (claimC7_id_resume [(3, (⟨10, []⟩ : NodeInner Nat))] [(⟨1, 5⟩, (7 : Nat))]).2.1 3
      (by decide)⟩

/-- C8: for distinct values, `UOrd::new` is symmetric in its arguments, the
two results are equal under the `PartialEq` implementation, feed the same
tuple to the hasher, and serialize to the same `(min, max)` encoding. -/
theorem claimC8_pair_symmetry {T : Type} [LinearOrder T] (a b : T) (_h : a ≠ b) :
    UOrd.new a b = UOrd.new b a ∧
    UOrd.beqU (UOrd.new a b) (UOrd.new b a) = true ∧
    UOrd.hashRepr (UOrd.new a b) = UOrd.hashRepr (UOrd.new b a) ∧
    UOrd.serializeRepr (UOrd.new a b) = UOrd.serializeRepr (UOrd.new b a) := by
  have heq := UOrd.new_comm a b
  refine ⟨heq, ?_, by rw [heq], by rw [heq]⟩
  rw [heq]
  unfold UOrd.beqU
  simp

/-- Witness for C8 at the concrete pair `(1, 2)` over `Nat`. -/
theorem claimC8_witness :
    UOrd.new (1 : Nat) 2 = UOrd.new 2 1 ∧
    UOrd.beqU (UOrd.new (1 : Nat) 2) (UOrd.new 2 1) = true ∧
    UOrd.hashRepr (UOrd.new (1 : Nat) 2) = UOrd.hashRepr (UOrd.new 2 1) ∧
    UOrd.serializeRepr (UOrd.new (1 : Nat) 2) = UOrd.serializeRepr (UOrd.new 2 1) :=
  claimC8_pair_symmetry 1 2 (by decide)

/-- A concrete reachable graph: two nodes (payloads 10 and 20) joined by
one link (payload 5). -/
def gW : Graph Nat Nat :=
  ⟨2, [(0, ⟨10, [1]⟩), (1, ⟨20, [0]⟩)], [(⟨0, 1⟩, 5)]⟩

theorem gW_reachable : Reachable gW := by
  have h1 : applyOp (Graph.new : Graph Nat Nat) (Op.addNode 10) =
      some ⟨1, [(0, ⟨10, []⟩)], []⟩ := by decide
  have h2 : applyOp (⟨1, [(0, ⟨10, []⟩)], []⟩ : Graph Nat Nat) (Op.addNode 20) =
      some ⟨2, [(0, ⟨10, []⟩), (1, ⟨20, []⟩)], []⟩ := by decide
  have h3 : applyOp (⟨2, [(0, ⟨10, []⟩), (1, ⟨20, []⟩)], []⟩ : Graph Nat Nat)
      (Op.addLink 5 0 1) = some gW := by decide
  exact Reachable.step _ (Reachable.step _ (Reachable.step _ Reachable.empty h1) h2) h3

/-- C1: for every graph reachable from the empty graph by completed public
operations and every present node, the adjacency set holds exactly the ids
`m` for which a link keyed by the unordered pair of the two ids exists. -/
theorem claimC1_adjacency_invariant {N L : Type} {g : Graph N L} (h : Reachable g)
    (id : Nat) (inner : NodeInner N) (hl : lookupM id g.nodes = some inner) (m : Nat) :
    m ∈ inner.neighbors ↔ (lookupM (UOrd.new id m) g.links).isSome = true :=
  (reachable_graphInv h).consistent id inner hl m

/-- Witness for C1 at the concrete reachable graph `gW`, node 0,
candidate neighbor 1. -/
theorem claimC1_witness :
    1 ∈ (⟨10, [1]⟩ : NodeInner Nat).neighbors ↔
      (lookupM (UOrd.new 0 1) gW.links).isSome = true :=
  claimC1_adjacency_invariant gW_reachable 0 ⟨10, [1]⟩ rfl 1

/-- C2: on a graph where `a` and `b` are distinct present nodes with no
link between them, `add_link(p1)` then `add_link(p2)` returns `Some p1`
from the second call, leaves the node map (hence every adjacency set)
unchanged, and the stored payload for the pair becomes `p2`. -/
theorem claimC2_idempotent_relink {N L : Type} {g : Graph N L} (p1 p2 : L) {a b : Nat}
    (hab : a ≠ b)
    (ha : (lookupM a g.nodes).isSome = true)
    (hb : (lookupM b g.nodes).isSome = true)
    (hno : lookupM (UOrd.new a b) g.links = none) :
    ∃ g1 g2, addLink g p1 a b = Except.ok (none, g1) ∧
      addLink g1 p2 a b = Except.ok (some p1, g2) ∧
      g2.nodes = g1.nodes ∧
      lookupM (UOrd.new a b) g2.links = some p2 := by
  have hmin : (lookupM (UOrd.new a b).min g.nodes).isSome = true := by
    rcases UOrd.new_endpoint_pair a b with ⟨hm, -⟩ | ⟨hm, -⟩ <;> rw [hm]
    · exact ha
    · exact hb
  have hmax : (lookupM (UOrd.new a b).max g.nodes).isSome = true := by
    rcases UOrd.new_endpoint_pair a b with ⟨-, hM⟩ | ⟨-, hM⟩ <;> rw [hM]
    · exact hb
    · exact ha
  obtain ⟨i1, h1⟩ := Option.isSome_iff_exists.mp hmin
  obtain ⟨i2, h2⟩ := Option.isSome_iff_exists.mp hmax
  refine ⟨{ g with
      nodes :=
        insertM (UOrd.new a b).max ⟨i2.value, insertS (UOrd.new a b).min i2.neighbors⟩
          (insertM (UOrd.new a b).min ⟨i1.value, insertS (UOrd.new a b).max i1.neighbors⟩
            g.nodes),
      links := insertM (UOrd.new a b) p1 g.links },
    { g with
      nodes :=
        insertM (UOrd.new a b).max ⟨i2.value, insertS (UOrd.new a b).min i2.neighbors⟩
          (insertM (UOrd.new a b).min ⟨i1.value, insertS (UOrd.new a b).max i1.neighbors⟩
            g.nodes),
      links := insertM (UOrd.new a b) p2 (insertM (UOrd.new a b) p1 g.links) },
    addLink_new p1 hab hno h1 h2, ?_, rfl, ?_⟩
  · apply addLink_replace p2 hab
    show lookupM (UOrd.new a b) (insertM (UOrd.new a b) p1 g.links) = some p1
    rw [lookupM_insertM, if_pos rfl]
  · show lookupM (UOrd.new a b)
      (insertM (UOrd.new a b) p2 (insertM (UOrd.new a b) p1 g.links)) = some p2
    rw [lookupM_insertM, if_pos rfl]

/-- A concrete graph with two nodes and no links, for exercising C2. -/
def gW2 : Graph Nat Nat := ⟨2, [(0, ⟨10, []⟩), (1, ⟨20, []⟩)], []⟩

/-- Witness for C2 at the concrete graph `gW2` with payloads 5 then 7 on
the pair `(0, 1)`. -/
theorem claimC2_witness :
    ∃ g1 g2, addLink gW2 5 0 1 = Except.ok (none, g1) ∧
      addLink g1 7 0 1 = Except.ok (some 5, g2) ∧
      g2.nodes = g1.nodes ∧
      lookupM (UOrd.new 0 1) g2.links = some 7 :=
  claimC2_idempotent_relink 5 7 (by decide) (by decide) (by decide) (by decide)

theorem ne_nil_of_not_isEmpty {s : List Nat} (h : (!s.isEmpty) = true) : s ≠ [] := by
  cases s with
  | nil => cases h
  | cons a t => exact List.cons_ne_nil a t

theorem not_isEmpty_of_ne_nil {s : List Nat} (h : s ≠ []) : (!s.isEmpty) = true := by
  cases s with
  | nil => exact absurd rfl h
  | cons a t => rfl

theorem lookupM_removeOrphaned {N L : Type} {g : Graph N L}
    (hnd : (g.nodes.map Prod.fst).Nodup) (id : Nat) (i : NodeInner N) :
    lookupM id (removeOrphanedNodes g).nodes = some i ↔
      lookupM id g.nodes = some i ∧ i.neighbors ≠ [] := by
  rw [show (removeOrphanedNodes g).nodes =
    g.nodes.filter (fun e => !e.2.neighbors.isEmpty) from rfl, lookupM_filter _ hnd]
  cases hlk : lookupM id g.nodes with
  | none => simp
  | some j =>
    rw [Option.some_bind]
    by_cases hj : (!j.neighbors.isEmpty) = true
    · rw [if_pos hj]
      constructor
      · intro h
        injection h with h
        subst h
        exact ⟨rfl, ne_nil_of_not_isEmpty hj⟩
      · exact fun h => h.1
    · rw [if_neg hj]
      constructor
      · intro h
        cases h
      · rintro ⟨h1, h2⟩
        injection h1 with h1
        subst h1
        exact absurd (not_isEmpty_of_ne_nil h2) hj

theorem removeOrphanedNodes_eq_self {N L : Type} {g : Graph N L}
    (h : ∀ e ∈ g.nodes, e.2.neighbors ≠ []) : removeOrphanedNodes g = g := by
  have hfe : g.nodes.filter (fun e => !e.2.neighbors.isEmpty) = g.nodes :=
    List.filter_eq_self.mpr (fun e he => not_isEmpty_of_ne_nil (h e he))
  unfold removeOrphanedNodes
  rw [hfe]

/-- C9: `remove_orphaned_nodes` retains exactly the node entries whose
adjacency set is non-empty at the time of the call, leaves the link map
untouched, and is a no-op when every node has a non-empty adjacency set —
in particular (through the consistency invariant) when every node has at
least one link. -/
theorem claimC9_remove_orphans {N L : Type} (g : Graph N L)
    (hnd : (g.nodes.map Prod.fst).Nodup) :
    (∀ id i, lookupM id (removeOrphanedNodes g).nodes = some i ↔
      lookupM id g.nodes = some i ∧ i.neighbors ≠ []) ∧
    (removeOrphanedNodes g).links = g.links ∧
    ((∀ e ∈ g.nodes, e.2.neighbors ≠ []) → removeOrphanedNodes g = g) ∧
    (LinksWF g → Consistent g →
      (∀ id ∈ g.nodes.map Prod.fst, ∃ p ∈ g.links.map Prod.fst, p.containsB id = true) →
      removeOrphanedNodes g = g) := by
  refine ⟨fun id i => lookupM_removeOrphaned hnd id i, rfl,
    removeOrphanedNodes_eq_self, ?_⟩
  intro hlw hcons hall
  apply removeOrphanedNodes_eq_self
  intro e he
  obtain ⟨p, hp, hpc⟩ := hall e.1 (List.mem_map_of_mem Prod.fst he)
  have hle : lookupM e.1 g.nodes = some e.2 := lookupM_of_mem_of_nodup hnd he
  have hps : (lookupM p g.links).isSome = true := lookupM_isSome_iff.mpr hp
  have hplt : p.min ≤ p.max := le_of_lt (hlw p hps).1
  rcases Bool.or_eq_true_iff.mp hpc with hc | hc
  · have hmin : p.min = e.1 := of_decide_eq_true hc
    have hm : p.max ∈ e.2.neighbors := by
      rw [hcons e.1 e.2 hle p.max, ← hmin, UOrd.new_of_norm hplt]
      exact hps
    exact List.ne_nil_of_mem hm
  · have hmax : p.max = e.1 := of_decide_eq_true hc
    have hm : p.min ∈ e.2.neighbors := by
      rw [hcons e.1 e.2 hle p.min, ← hmax, UOrd.new_comm, UOrd.new_of_norm hplt]
      exact hps
    exact List.ne_nil_of_mem hm

/-- Witness for C9 at the concrete graph `gW`: node 0 survives because its
adjacency set `[1]` is non-empty. -/
theorem claimC9_witness :
    lookupM 0 (removeOrphanedNodes gW).nodes = some ⟨10, [1]⟩ ↔
      lookupM 0 gW.nodes = some ⟨10, [1]⟩ ∧ ([1] : List Nat) ≠ [] :=
  (claimC9_remove_orphans gW (by decide)).1 0 ⟨10, [1]⟩

theorem map_snd_eq_filterMap_lookup {κ α : Type} [DecidableEq κ]
    {l l' : List (κ × α)} (hnd : (l.map Prod.fst).Nodup) (hsub : ∀ e ∈ l', e ∈ l) :
    l'.map Prod.snd = (l'.map Prod.fst).filterMap (fun q => lookupM q l) := by
  induction l' with
  | nil => rfl
  | cons e rest ih =>
    have he : lookupM e.1 l = some e.2 :=
      lookupM_of_mem_of_nodup hnd (hsub e (List.mem_cons_self e rest))
    simp only [List.map_cons, List.filterMap_cons, he]
    rw [ih (fun f hf => hsub f (List.mem_cons_of_mem e hf))]

theorem neighbors_ne_self {N L : Type} {g : Graph N L} {id : Nat} {i : NodeInner N}
    (hlw : LinksWF g) (hcons : Consistent g) (hl : lookupM id g.nodes = some i) :
    ∀ m ∈ i.neighbors, m ≠ id := by
  intro m hm hmeq
  subst hmeq
  have hs := (hcons m i hl m).mp hm
  have hlt := (hlw _ hs).1
  rw [UOrd.new_self] at hlt
  exact lt_irrefl _ hlt

theorem removeNode_payloads_perm {N L : Type} {g : Graph N L} {id : Nat}
    {i : NodeInner N}
    (_hnodes : (g.nodes.map Prod.fst).Nodup)
    (hlinks : (g.links.map Prod.fst).Nodup)
    (hnbrs : ∀ n inner, lookupM n g.nodes = some inner → inner.neighbors.Nodup)
    (hlw : LinksWF g) (hcons : Consistent g)
    (hl : lookupM id g.nodes = some i) :
    (i.neighbors.filterMap (fun m => lookupM (UOrd.new m id) g.links)).Perm
      ((g.links.filter (fun e => e.1.containsB id)).map Prod.snd) := by
  have hnb_ne : ∀ m ∈ i.neighbors, m ≠ id := neighbors_ne_self hlw hcons hl
  have hK1nd : (i.neighbors.map (fun m => UOrd.new m id)).Nodup := by
    refine List.Nodup.map_on ?_ (hnbrs id i hl)
    intro x hx y hy hxy
    rcases UOrd.new_eq_new_iff.mp hxy with ⟨h1, -⟩ | ⟨h1, -⟩
    · exact h1
    · exact absurd h1 (hnb_ne x hx)
  have hK2nd : ((g.links.filter (fun e => e.1.containsB id)).map Prod.fst).Nodup :=
    ((List.filter_sublist g.links).map Prod.fst).nodup hlinks
  have hmemiff : ∀ q : UOrd Nat,
      q ∈ (g.links.filter (fun e => e.1.containsB id)).map Prod.fst ↔
      q ∈ i.neighbors.map (fun m => UOrd.new m id) := by
    intro q
    constructor
    · intro hq
      obtain ⟨e, hef, hq⟩ := List.mem_map.mp hq
      obtain ⟨hel, hpc⟩ := List.mem_filter.mp hef
      subst hq
      have hps : (lookupM e.1 g.links).isSome = true :=
        lookupM_isSome_iff.mpr (List.mem_map_of_mem Prod.fst hel)
      have hplt : e.1.min < e.1.max := (hlw e.1 hps).1
      have hnorm : UOrd.new e.1.min e.1.max = e.1 := UOrd.new_of_norm (le_of_lt hplt)
      rcases Bool.or_eq_true_iff.mp hpc with hc | hc
      · have hmin : e.1.min = id := of_decide_eq_true hc
        refine List.mem_map.mpr ⟨e.1.max, ?_, ?_⟩
        · rw [hcons id i hl e.1.max, ← hmin, hnorm]
          exact hps
        · rw [UOrd.new_comm, ← hmin]
          exact hnorm
      · have hmax : e.1.max = id := of_decide_eq_true hc
        refine List.mem_map.mpr ⟨e.1.min, ?_, ?_⟩
        · rw [hcons id i hl e.1.min, UOrd.new_comm, ← hmax, hnorm]
          exact hps
        · rw [← hmax]
          exact hnorm
    · intro hq
      obtain ⟨m, hm, hq⟩ := List.mem_map.mp hq
      subst hq
      have hps : (lookupM (UOrd.new m id) g.links).isSome = true := by
        rw [UOrd.new_comm]
        exact (hcons id i hl m).mp hm
      obtain ⟨v, hv⟩ := Option.isSome_iff_exists.mp hps
      refine List.mem_map.mpr ⟨(UOrd.new m id, v), ?_, rfl⟩
      refine List.mem_filter.mpr ⟨mem_of_lookupM_eq_some hv, ?_⟩
      exact UOrd.containsB_new_iff.mpr (Or.inr rfl)
  have hperm : ((g.links.filter (fun e => e.1.containsB id)).map Prod.fst).Perm
      (i.neighbors.map (fun m => UOrd.new m id)) :=
    (List.perm_ext_iff_of_nodup hK2nd hK1nd).mpr hmemiff
  have hstep1 : i.neighbors.filterMap (fun m => lookupM (UOrd.new m id) g.links) =
      (i.neighbors.map (fun m => UOrd.new m id)).filterMap
        (fun q => lookupM q g.links) := by
    rw [List.filterMap_map]
    rfl
  have hstep2 : (g.links.filter (fun e => e.1.containsB id)).map Prod.snd =
      ((g.links.filter (fun e => e.1.containsB id)).map Prod.fst).filterMap
        (fun q => lookupM q g.links) :=
    map_snd_eq_filterMap_lookup hlinks (fun e he => List.filter_subset' g.links he)
  rw [hstep1, hstep2]
  exact (hperm.filterMap _).symm

/-- C3 (amended): on a well-formed graph satisfying the adjacency
consistency invariant in which every link key joins two distinct present
nodes (`LinksWF`, as holds for every reachable graph), `remove_node`
removes the node entry, removes exactly the link entries whose key
contains the id, prunes the id from every other adjacency set, and
returns the node payload with the removed link payloads in no guaranteed
order; on an unknown id it returns the "not found" result and leaves the
graph unchanged. -/
theorem claimC3_remove_node {N L : Type} {g : Graph N L} (id : Nat)
    (hw : NodupKeysG g) (hlw : LinksWF g) (hcons : Consistent g) :
    (∀ i : NodeInner N, lookupM id g.nodes = some i →
      ∃ ws g', removeNode g id = Except.ok (some (i.value, ws), g') ∧
        ws.Perm ((g.links.filter (fun e => e.1.containsB id)).map Prod.snd) ∧
        (∀ q : UOrd Nat, lookupM q g'.links =
          if q.containsB id then none else lookupM q g.links) ∧
        (∀ n, lookupM n g'.nodes = if n = id then none
          else (lookupM n g.nodes).map (fun j => ⟨j.value, removeS id j.neighbors⟩))) ∧
    (lookupM id g.nodes = none → removeNode g id = Except.ok (none, g)) := by
  obtain ⟨hnodes, hlinks, hnbrs⟩ := hw
  refine ⟨?_, fun h => removeNode_absent h⟩
  intro i hl
  obtain ⟨ws, g', hrun, hwseq, hlinksF, hnodesF, -, -, -⟩ :=
    removeNode_present_spec hnodes hlinks hnbrs hlw hcons hl
  refine ⟨ws, g', hrun, ?_, hlinksF, hnodesF⟩
  rw [hwseq]
  exact removeNode_payloads_perm hnodes hlinks hnbrs hlw hcons hl

/-- Witness for the amended C3 at the concrete reachable graph `gW`,
removing node 0. -/
theorem claimC3_witness :
    ∃ ws g', removeNode gW 0 = Except.ok (some (10, ws), g') ∧
      ws.Perm ((gW.links.filter (fun e => e.1.containsB 0)).map Prod.snd) ∧
      (∀ q : UOrd Nat, lookupM q g'.links =
        if q.containsB 0 then none else lookupM q gW.links) ∧
      (∀ n, lookupM n g'.nodes = if n = 0 then none
        else (lookupM n gW.nodes).map (fun j => ⟨j.value, removeS 0 j.neighbors⟩)) :=
  (claimC3_remove_node 0 (reachable_graphInv gW_reachable).wf
    (reachable_graphInv gW_reachable).linksWF
    (reachable_graphInv gW_reachable).consistent).1 ⟨10, [1]⟩ rfl

/-- A graph satisfying the adjacency consistency invariant in which link
`{1, 2}` dangles: endpoint 2 is not a present node. -/
def gC3 : Graph Nat Nat := ⟨3, [(1, ⟨10, [2]⟩)], [(⟨1, 2⟩, 5)]⟩

/-- Counterexample to C3 as stated: `gC3` is a well-formed map state
satisfying the adjacency consistency invariant, node 1 is present, yet
`remove_node(1)` panics (on the unwrap of absent neighbor 2) instead of
returning the removed payloads — the graph at the panic moment has lost
node 1 but still holds the link. -/
theorem claimC3_counterexample :
    NodupKeysG gC3 ∧ Consistent gC3 ∧ (lookupM 1 gC3.nodes).isSome = true ∧
    removeNode gC3 1 = Except.error ⟨3, [], [(⟨1, 2⟩, 5)]⟩ := by
  refine ⟨⟨by decide, by decide, ?_⟩, ?_, by decide, rfl⟩
  · intro id inner hl
    rw [show gC3.nodes = [(1, (⟨10, [2]⟩ : NodeInner Nat))] from rfl, lookupM] at hl
    by_cases h1 : (1 : Nat) = id
    · rw [if_pos h1] at hl
      injection hl with hl
      subst hl
      decide
    · rw [if_neg h1] at hl
      rw [lookupM] at hl
      cases hl
  · intro id inner hl m
    rw [show gC3.nodes = [(1, (⟨10, [2]⟩ : NodeInner Nat))] from rfl, lookupM] at hl
    by_cases h1 : (1 : Nat) = id
    · rw [if_pos h1] at hl
      injection hl with hl
      subst hl
      subst h1
      show m ∈ [2] ↔ (lookupM (UOrd.new 1 m) gC3.links).isSome = true
      constructor
      · intro hm
        rcases List.mem_cons.mp hm with rfl | hm'
        · decide
        · cases hm'
      · intro hs
        rw [show gC3.links = [(⟨1, 2⟩, 5)] from rfl, lookupM] at hs
        by_cases hk : (⟨1, 2⟩ : UOrd Nat) = UOrd.new 1 m
        · have h2 := (UOrd.new_eq_iff
            (by decide : ((⟨1, 2⟩ : UOrd Nat)).min ≤ (⟨1, 2⟩ : UOrd Nat).max)).mp hk.symm
          rcases h2 with ⟨-, hm2⟩ | ⟨h12, -⟩
          · rw [hm2]
            exact List.mem_cons_self _ _
          · exact absurd h12 (by decide)
        · rw [if_neg hk, lookupM] at hs
          cases hs
    · rw [if_neg h1] at hl
      rw [lookupM] at hl
      cases hl

theorem lookupM_map_entry {κ α β : Type} [DecidableEq κ] (F : κ → α → β) (k : κ) :
    ∀ l : List (κ × α), lookupM k (l.map (fun e => (e.1, F e.1 e.2))) =
      (lookupM k l).map (fun v => F k v) := by
  intro l
  induction l with
  | nil => rfl
  | cons e rest ih =>
    rw [List.map_cons, lookupM, lookupM]
    by_cases he : e.1 = k
    · subst he
      rw [if_pos rfl, if_pos rfl]
      rfl
    · rw [if_neg he, if_neg he, ih]

theorem mem_foldl_insertS : ∀ (l init : List Nat) (x : Nat),
    x ∈ l.foldl (fun s m => insertS m s) init ↔ x ∈ init ∨ x ∈ l := by
  intro l
  induction l with
  | nil =>
    intro init x
    simp
  | cons a t ih =>
    intro init x
    rw [List.foldl_cons, ih]
    simp only [mem_insertS, List.mem_cons]
    tauto

theorem mem_recomputeNeighbors {L : Type} {id m : Nat} {links : List (UOrd Nat × L)} :
    m ∈ recomputeNeighbors id links ↔
      ∃ p ∈ links.map Prod.fst, p.other id = some m := by
  unfold recomputeNeighbors
  rw [mem_foldl_insertS]
  simp [List.mem_filterMap]

theorem map_eq_self_of_eq {α : Type} {l : List α} {f : α → α}
    (h : ∀ e ∈ l, f e = e) : l.map f = l := by
  induction l with
  | nil => rfl
  | cons e rest ih =>
    rw [List.map_cons, h e (List.mem_cons_self e rest),
      ih (fun f' hf => h f' (List.mem_cons_of_mem e hf))]

/-- C4: serializing then deserializing yields identical node-payload and
link-payload maps (for any graph whose stored keys are normalized, as the
`UOrd` type guarantees), with every adjacency set recomputed from the link
map by the partner-scan rule. -/
theorem claimC4_round_trip {N L : Type} (g : Graph N L)
    (hnorm : ∀ p ∈ g.links.map Prod.fst, p.min ≤ p.max) :
    (roundTrip g).links = g.links ∧
    (roundTrip g).nodes.map (fun e => (e.1, e.2.value)) =
      g.nodes.map (fun e => (e.1, e.2.value)) ∧
    (∀ id inner, lookupM id (roundTrip g).nodes = some inner →
      ∀ m, (m ∈ inner.neighbors ↔
        ∃ p ∈ g.links.map Prod.fst, p.other id = some m)) := by
  have hlinks_eq : (roundTrip g).links = g.links := by
    show ((g.links.map fun e => (UOrd.serializeRepr e.1, e.2)).map
      fun e => (UOrd.new e.1.1 e.1.2, e.2)) = g.links
    rw [List.map_map]
    apply map_eq_self_of_eq
    intro e he
    show (UOrd.new e.1.min e.1.max, e.2) = e
    rw [UOrd.new_of_norm (hnorm e.1 (List.mem_map_of_mem Prod.fst he))]
  have hnodes_shape : (roundTrip g).nodes = g.nodes.map
      (fun e => (e.1,
        (⟨e.2.value, recomputeNeighbors e.1 (roundTrip g).links⟩ : NodeInner N))) := by
    show ((g.nodes.map fun e => (e.1, e.2.value)).map
        fun e => (e.1, (⟨e.2, []⟩ : NodeInner N))).map
      (fun e => (e.1,
        (⟨e.2.value, recomputeNeighbors e.1 (roundTrip g).links⟩ : NodeInner N))) = _
    rw [List.map_map, List.map_map]
    rfl
  refine ⟨hlinks_eq, ?_, ?_⟩
  · rw [hnodes_shape, List.map_map]
    rfl
  · intro id inner hl m
    rw [hnodes_shape,
      lookupM_map_entry
        (fun k v => (⟨v.value, recomputeNeighbors k (roundTrip g).links⟩ : NodeInner N))
        id g.nodes] at hl
    cases hlg : lookupM id g.nodes with
    | none =>
      rw [hlg] at hl
      cases hl
    | some j =>
      rw [hlg, Option.map_some'] at hl
      injection hl with hl
      subst hl
      show m ∈ recomputeNeighbors id (roundTrip g).links ↔ _
      rw [hlinks_eq, mem_recomputeNeighbors]

/-- Witness for C4 at the concrete graph `gW`: the link map survives the
round trip unchanged. -/
theorem claimC4_witness : (roundTrip gW).links = gW.links :=
  (claimC4_round_trip gW (by decide)).1

/-- C10 counterexample graph: node 0 present, node 1 absent, no links. -/
def gC10 : Graph Nat Nat := ⟨1, [(0, ⟨7, []⟩)], []⟩

/-- Counterexample to C10 as stated: linking present node 0 to absent node
1 panics after the link has been inserted, but node 0's adjacency set HAS
already been updated, so the clause "the graph is left with a link whose
adjacency updates were never applied" fails at this input. -/
theorem claimC10_counterexample :
    lookupM (UOrd.new 0 1) gC10.links = none ∧
    lookupM 1 gC10.nodes = none ∧
    addLink gC10 9 0 1 = Except.error ⟨1, [(0, ⟨7, [1]⟩)], [(⟨0, 1⟩, 9)]⟩ ∧
    (⟨1, [(0, ⟨7, [1]⟩)], [(⟨0, 1⟩, 9)]⟩ : Graph Nat Nat).nodes ≠ gC10.nodes :=
  ⟨by decide, by decide, rfl, by decide⟩

/-- C10 (amended): when the pair is distinct, no link exists yet, and at
least one endpoint is absent, `add_link` panics after the link entry has
already been inserted — non-atomically.  When the smaller endpoint is
absent no adjacency update is applied; when only the larger endpoint is
absent, the smaller endpoint's adjacency set has already been updated. -/
theorem claimC10_nonatomic {N L : Type} {g : Graph N L} (v : L) {a b : Nat}
    (hab : a ≠ b) (hno : lookupM (UOrd.new a b) g.links = none)
    (habsent : lookupM a g.nodes = none ∨ lookupM b g.nodes = none) :
    ∃ g', addLink g v a b = Except.error g' ∧
      lookupM (UOrd.new a b) g'.links = some v ∧
      ((lookupM (UOrd.new a b).min g.nodes = none ∧ g'.nodes = g.nodes) ∨
       (∃ i1, lookupM (UOrd.new a b).min g.nodes = some i1 ∧
         lookupM (UOrd.new a b).max g.nodes = none ∧
         g'.nodes = insertM (UOrd.new a b).min
           ⟨i1.value, insertS (UOrd.new a b).max i1.neighbors⟩ g.nodes)) := by
  cases h1 : lookupM (UOrd.new a b).min g.nodes with
  | none =>
    refine ⟨_, addLink_panic_min_absent v hab hno h1, ?_, Or.inl ⟨rfl, rfl⟩⟩
    show lookupM (UOrd.new a b) (insertM (UOrd.new a b) v g.links) = some v
    rw [lookupM_insertM, if_pos rfl]
  | some i1 =>
    have h2 : lookupM (UOrd.new a b).max g.nodes = none := by
      rcases UOrd.new_endpoint_pair a b with ⟨hm, hM⟩ | ⟨hm, hM⟩ <;>
        rcases habsent with hA | hA
      · rw [hm, hA] at h1
        cases h1
      · rw [hM]
        exact hA
      · rw [hM]
        exact hA
      · rw [hm, hA] at h1
        cases h1
    refine ⟨_, addLink_panic_max_absent v hab hno h1 h2, ?_,
      Or.inr ⟨i1, rfl, h2, rfl⟩⟩
    show lookupM (UOrd.new a b) (insertM (UOrd.new a b) v g.links) = some v
    rw [lookupM_insertM, if_pos rfl]

/-- Witness for the amended C10 at the concrete graph `gC10`. -/
theorem claimC10_witness :
    ∃ g', addLink gC10 9 0 1 = Except.error g' ∧
      lookupM (UOrd.new 0 1) g'.links = some 9 ∧
      ((lookupM (UOrd.new 0 1).min gC10.nodes = none ∧ g'.nodes = gC10.nodes) ∨
       (∃ i1, lookupM (UOrd.new 0 1).min gC10.nodes = some i1 ∧
         lookupM (UOrd.new 0 1).max gC10.nodes = none ∧
         g'.nodes = insertM (UOrd.new 0 1).min
           ⟨i1.value, insertS (UOrd.new 0 1).max i1.neighbors⟩ gC10.nodes)) :=
  claimC10_nonatomic 9 (by decide) (by decide) (Or.inr (by decide))

end MC
